import Mathlib

/-!
# Verification of the points-to front end of `goat`

Shallow embedding of `analysis/upfront/pointer-access.go`,
`analysis/upfront/pointer.go` and `utils/ssa-value-set.go`, and a model of the
abstract memory of `analysis/lattice` after its specification.

Modelling conventions:

* Go strings are lists of characters (`List Char`).  Every construct used by the
  embedded code (`==`, `+`, `strings.Join`, `f[1:]` on a string starting with the
  one-byte character `.`, and the regular expression below, whose only literal
  characters are ASCII) behaves the same on bytes, on runes and on characters.
* `go/types` types are finite trees (`GoType`).
* Fatal termination (`log.Fatalln`, `log.Fatalf`, `os.Exit`) is the result `none`.
* The points-to solver, the option `opts.SkipSync()` and the helper
  `utils.IsNamedTypeStrict` are parameters of the embedding (`Env`).
* The persistent tree behind a value set is a list of its keys; what the hasher
  reads from a value, and the functions `PointerHasher.Hash`, `HashCombine` and
  `sort.Slice`, are parameters (`HashEnv`).
-/

namespace Goat

/-! ## Access paths (`pointer-access.go`) -/

/-- Access actions: `FieldAccess` carries the field name, `ArrayAccess` is a unit. -/
inductive Access
  | FieldAccess (Field : List Char)
  | ArrayAccess
  deriving DecidableEq

/-- The character class `[^.[]` of `pathRegexp`: anything but a dot and an open
square bracket (a negated class also matches a newline in Go). -/
def fieldChar (c : Char) : Bool := c != '.' && c != '['

/-- One anchored attempt of `pathRegexp`, the expression `\.[^.[]+|\[\*\]`, at the
head of the input.  The first alternative needs a dot followed by at least one
class character and is greedy; the second is the literal text `[*]`.  The result
is the matched text together with the unread rest of the input. -/
def matchAt : List Char → Option (List Char × List Char)
  | [] => none
  | c :: rest =>
    if c = '.' then
      if rest.takeWhile fieldChar = [] then none
      else some (c :: rest.takeWhile fieldChar, rest.dropWhile fieldChar)
    else if c = '[' ∧ rest.take 2 = ['*', ']'] then
      some (c :: rest.take 2, rest.drop 2)
    else none

/-- The scanning loop of `pathRegexp.FindAllString(path, -1)`: the leftmost match is
taken, the scan resumes right after it, and a position where no match starts is
skipped.  The first argument bounds the number of iterations. -/
def findAllFuel : Nat → List Char → List (List Char)
  | 0, _ => []
  | _ + 1, [] => []
  | n + 1, c :: cs =>
    match matchAt (c :: cs) with
    | some (m, rest) => m :: findAllFuel n rest
    | none => findAllFuel n cs

/-- All successive non-overlapping matches of `pathRegexp` in `s`.  Every iteration
of the loop consumes a character, so `s.length` iterations always suffice
(`findAllFuel_stable`). -/
def FindAllString (s : List Char) : List (List Char) := findAllFuel s.length s

/-- A points-to label: the root value and the raw access path. -/
structure Label (V : Type) where
  value : V
  path : List Char

/-- The Go function `SplitLabel`: the root value and the decoded access actions, or
`none` when the function stops in `log.Fatalln`. -/
def SplitLabel {V : Type} (label : Label V) : Option (V × List Access) :=
  let v := label.value
  if label.path = [] then some (v, [])
  else
    let components := FindAllString label.path
    if components.flatten ≠ label.path then none
    else some (v, components.map fun f =>
      if f = ['[', '*', ']'] then Access.ArrayAccess else Access.FieldAccess (f.drop 1))

/-- Raw text of one access action: `.` followed by the name, or `[*]`. -/
def encodeStep : Access → List Char
  | .FieldAccess f => '.' :: f
  | .ArrayAccess => ['[', '*', ']']

/-- Raw path of a sequence of access actions. -/
def encodePath (steps : List Access) : List Char := (steps.map encodeStep).flatten

/-- A step the path grammar can express: an array access, or a field access whose
name is non-empty and has neither a dot nor an open square bracket. -/
def LegalStep : Access → Prop
  | .FieldAccess f => f ≠ [] ∧ ∀ c ∈ f, c ≠ '.' ∧ c ≠ '['
  | .ArrayAccess => True

/-- A token of the path grammar: the text `[*]`, or a dot followed by one or more
characters other than a dot and an open square bracket. -/
def IsToken (t : List Char) : Prop :=
  t = ['[', '*', ']'] ∨ ∃ name, name ≠ [] ∧ (∀ c ∈ name, c ≠ '.' ∧ c ≠ '[') ∧ t = '.' :: name

/-- The path grammar: a concatenation of zero or more tokens. -/
def InGrammar (p : List Char) : Prop :=
  ∃ toks : List (List Char), (∀ t ∈ toks, IsToken t) ∧ toks.flatten = p

/-! ## Types (`go/types`) and values (`ssa.Value`) -/

mutual
/-- The `go/types` type forms the embedded code distinguishes.  `Named` carries the
package path and name of the declared type and the type it was declared from.
Types are finite trees: a declaration such as `type P *P`, whose unfolding through
`Underlying` and `Elem` never ends, is outside the model. -/
inductive GoType
  | Basic (name : List Char)
  | Named (pkg name : List Char) (underlying : GoType)
  | Chan (elem : GoType)
  | Signature
  | Interface
  | Map (key elem : GoType)
  | Slice (elem : GoType)
  | Pointer (elem : GoType)
  | Array (len : Nat) (elem : GoType)
  | Struct (fields : FieldList)
  | Tuple
  deriving DecidableEq
/-- The fields of a struct type in declaration order: name and type of each. -/
inductive FieldList
  | nil
  | cons (name : List Char) (type : GoType) (rest : FieldList)
  deriving DecidableEq
end

/-- The method `Type.Underlying()`: a named type answers with the type behind its
declaration (never itself a named type), every other type with itself. -/
def GoType.Underlying : GoType → GoType
  | .Named _ _ u => u.Underlying
  | t => t

/-- An `ssa.Value` as far as the embedded code observes it: an identity, its static
type, and whether it is an `*ssa.Alloc` instruction.  `Heap` is the field of that
name of an `*ssa.Alloc` (heap or stack allocation); the embedded code never reads
it. -/
structure Value where
  id : Nat
  type : GoType
  isAlloc : Bool
  Heap : Bool
  deriving DecidableEq

/-! ## Type classification (`pointer.go`) -/

/-- The Go type `TargetType`, an integer used as a set of bits. -/
abbrev TargetType := Nat

/-- Constant `_NOT_TYPE`, `1 << iota` at `iota = 0`. -/
def _NOT_TYPE : TargetType := 1 <<< 0
/-- Constant `_DIRECT`, `1 << iota` at `iota = 1`. -/
def _DIRECT : TargetType := 1 <<< 1
/-- Constant `_INDIRECT`, `1 << iota` at `iota = 2`. -/
def _INDIRECT : TargetType := 1 <<< 2

/-- Configuration of the types whose values get points-to queries. -/
structure IncludeType where
  All : Bool := false
  Chan : Bool := false
  Interface : Bool := false
  Function : Bool := false
  Map : Bool := false
  Slice : Bool := false
  Pointer : Bool := false
  deriving DecidableEq

/-- The Go method `IncludeType.checkType`.  A case of the type switch whose `if`
fails leaves the switch and reaches the final `return _NOT_TYPE`. -/
def checkType (inc : IncludeType) : GoType → TargetType
  | .Named _ _ u => checkType inc u
  | .Chan _ => if inc.All || inc.Chan then _DIRECT else _NOT_TYPE
  | .Signature => if inc.All || inc.Function then _DIRECT else _NOT_TYPE
  | .Interface => if inc.All || inc.Interface then _DIRECT else _NOT_TYPE
  | .Map _ _ => if inc.All || inc.Map then _DIRECT else _NOT_TYPE
  | .Slice _ => if inc.All || inc.Slice then _DIRECT else _NOT_TYPE
  | .Pointer elem =>
    let res := if checkType inc elem ≠ _NOT_TYPE then _INDIRECT else _NOT_TYPE
    if inc.All || inc.Pointer then res + _DIRECT else _NOT_TYPE
  | _ => _NOT_TYPE

/-- The configuration `GetPtsToSets` hands to `Andersen`: channels, functions and
interfaces. -/
def standardInclude : IncludeType := { Chan := true, Function := true, Interface := true }

/-- The configuration with every per-category flag set and `All` unset. -/
def everyCategory : IncludeType :=
  { Chan := true, Interface := true, Function := true, Map := true, Slice := true, Pointer := true }

/-! ## Extended queries (`pointer-access.go`) -/

mutual
/-- The closure `collectLabels` of `getExtendedQueries`, with the captured slice
`labels` passed in and returned.  The closure switches on `t.Underlying()`, so a
named type is handled as the type behind it (`collectLabels_Underlying`). -/
def collectLabels : GoType → List Char → List (List Char) → List (List Char)
  | .Named _ _ u, pre, labels => collectLabels u pre labels
  | .Struct fs, pre, labels => collectFields fs pre labels
  | .Chan _, pre, labels => labels ++ [pre]
  | _, _, labels => labels
/-- The loop over the fields of a struct inside `collectLabels`. -/
def collectFields : FieldList → List Char → List (List Char) → List (List Char)
  | .nil, _, labels => labels
  | .cons name ty rest, pre, labels =>
    collectFields rest pre (collectLabels ty (pre ++ '.' :: name) labels)
end

/-- The Go function `getExtendedQueries`: one pointer level is removed from the
underlying type of the value, then the labels are collected from the root `x`. -/
def getExtendedQueries (v : Value) : List (List Char) :=
  let t := match v.type.Underlying with
    | .Pointer elem => elem
    | t => t
  collectLabels t ['x'] []

/-! ## Specification-side definitions -/

mutual
/-- Spec-side: the chains of field names that lead from a type, through nested
struct-typed fields only, to a channel, in depth-first field-declaration order.
A channel itself is reached by the empty chain. -/
def chanChains : GoType → List (List (List Char))
  | .Named _ _ u => chanChains u
  | .Chan _ => [[]]
  | .Struct fs => fieldChains fs
  | _ => []
/-- Spec-side: the chains of `chanChains` that start in one of the given fields. -/
def fieldChains : FieldList → List (List (List Char))
  | .nil => []
  | .cons name ty rest => (chanChains ty).map (fun chain => name :: chain) ++ fieldChains rest
end

/-- The fields of a struct type as a list of pairs of name and type. -/
def FieldList.toList : FieldList → List (List Char × GoType)
  | .nil => []
  | .cons name ty rest => (name, ty) :: rest.toList

/-- Spec-side: `ReachesChan t chain` says that the chain of field names leads from
the type `t` to a channel-typed field through struct-typed fields only (types are
taken after named unwrapping); the empty chain says that `t` is a channel type. -/
inductive ReachesChan : GoType → List (List Char) → Prop
  | chan {t e : GoType} : t.Underlying = .Chan e → ReachesChan t []
  | field {t ty : GoType} {fs : FieldList} {name : List Char} {chain : List (List Char)} :
      t.Underlying = .Struct fs → (name, ty) ∈ fs.toList → ReachesChan ty chain →
      ReachesChan t (name :: chain)

/-- Spec-side: the path string of a chain of field names: the root name `x`
followed by a dot and the name for every field on the chain. -/
def renderChain (chain : List (List Char)) : List Char :=
  'x' :: (chain.map fun name => '.' :: name).flatten

/-- A type the descent of `collectLabels` does not enter: pointer, interface,
array, slice or map (after named unwrapping). -/
def isBoundary : GoType → Bool
  | .Named _ _ u => isBoundary u
  | .Pointer _ => true
  | .Interface => true
  | .Array _ _ => true
  | .Slice _ => true
  | .Map _ _ => true
  | _ => false

mutual
/-- The type has no open channel, one reached through struct-typed fields only: it
is no channel itself, and when it is a struct no field has an open channel.  Every
channel of such a type lies behind a field of another kind of type. -/
def noOpenChan : GoType → Bool
  | .Named _ _ u => noOpenChan u
  | .Chan _ => false
  | .Struct fs => fieldsNoOpenChan fs
  | _ => true
/-- No field of the list has an open channel. -/
def fieldsNoOpenChan : FieldList → Bool
  | .nil => true
  | .cons _ ty rest => noOpenChan ty && fieldsNoOpenChan rest
end

/-! ## Query collection (`pointer.go`) -/

/-- The `pointer.Config` of the solver as far as the embedded code writes it.  The Go
fields `Queries` and `IndirectQueries` are sets of values; here the registered values
are listed in the order of registration.  `extendedQueries` lists every extended
query with the value, the path and the pointer handed out for it. -/
structure Config (P : Type) where
  Mains : List Nat
  BuildCallGraph : Bool
  Queries : List Value
  IndirectQueries : List Value
  extendedQueries : List (Value × List Char × P)

/-- The Go type `PointerResult`.  The embedded `pointer.Result` is `none` as long as
it is the zero value the collector leaves there; the two Go maps are finite maps
from values. -/
structure PointerResult (P R : Type) where
  Result : Option R
  CondQueries : Value → Option P
  PayloadQueries : Value → Option (List P)

/-- What the embedded functions use from outside the two files: the option
`opts.SkipSync()`, the helper `utils.IsNamedTypeStrict`, and the solver.
`AddExtendedQuery k v q` is the answer of `config.AddExtendedQuery(v, q)` when `k`
extended queries were registered before: a pointer, or `none` for an error.
`Analyze` is `pointer.Analyze`, `none` for an error. -/
structure Env (P R : Type) where
  SkipSync : Bool
  IsNamedTypeStrict : GoType → List Char → List Char → Bool
  AddExtendedQuery : Nat → Value → List Char → Option P
  Analyze : Config P → Option R

/-- The method `config.AddQuery(v)`. -/
def Config.AddQuery {P : Type} (c : Config P) (v : Value) : Config P :=
  { c with Queries := c.Queries ++ [v] }

/-- The method `config.AddIndirectQuery(v)`. -/
def Config.AddIndirectQuery {P : Type} (c : Config P) (v : Value) : Config P :=
  { c with IndirectQueries := c.IndirectQueries ++ [v] }

/-- The method `config.AddExtendedQuery(v, query)`: the pointer and the extended
configuration, or `none` for an error. -/
def Config.AddExtendedQuery {P R : Type} (env : Env P R) (c : Config P) (v : Value)
    (query : List Char) : Option (P × Config P) :=
  match env.AddExtendedQuery c.extendedQueries.length v query with
  | none => none
  | some ptr => some (ptr, { c with extendedQueries := c.extendedQueries ++ [(v, query, ptr)] })

/-- Assignment `m[k] = b` to a Go map. -/
def mapSet {β : Type} (m : Value → Option β) (k : Value) (b : β) : Value → Option β :=
  fun x => if x = k then some b else m x

/-- The instructions of a basic block as the collector tells them apart: a call
with the callee `Common().Value` and the call itself as a value, a `Range`
(a value of the opaque iterator type), any other value-producing instruction, a
`Send` with channel and sent operand, and any other instruction. -/
inductive Instr
  | Call (callee v : Value)
  | Range (id : Nat)
  | Val (v : Value)
  | Send (Chan X : Value)
  | Other
  deriving DecidableEq

/-- An `ssa.Function`: parameters, captured free variables, and the instructions of
its blocks. -/
structure SSAFunction where
  Params : List Value
  FreeVars : List Value
  Blocks : List (List Instr)

/-- The functions of `ssautil.AllFunctions(prog)` in the order the loop meets them. -/
abbrev Program := List SSAFunction

/-- The package name `sync`. -/
def syncName : List Char := ['s', 'y', 'n', 'c']
/-- The type name `Cond`. -/
def condName : List Char := ['C', 'o', 'n', 'd']
/-- The path `x.L` of the locker field. -/
def lockerPath : List Char := ['x', '.', 'L']

/-- The closure `maybeAdd` of `collectPtsToQueries` on the configuration and the
result under construction; `none` when it stops in `log.Fatalf`. -/
def maybeAdd {P R : Type} (env : Env P R) (inc : IncludeType)
    (st : Config P × PointerResult P R) (v : Value) : Option (Config P × PointerResult P R) :=
  let typ := checkType inc v.type
  if typ ≠ _NOT_TYPE then
    let direct : Option (Config P × PointerResult P R) :=
      if typ &&& _DIRECT ≠ 0 then
        let config := st.1.AddQuery v
        match v.type.Underlying with
        | .Pointer elem =>
          if !env.SkipSync then
            if v.isAlloc && env.IsNamedTypeStrict elem syncName condName then
              match config.AddExtendedQuery env v lockerPath with
              | none => none
              | some (ptr, config) =>
                some (config, { st.2 with CondQueries := mapSet st.2.CondQueries v ptr })
            else some (config, st.2)
          else some (config, st.2)
        | _ => some (config, st.2)
      else some st
    match direct with
    | none => none
    | some st =>
      if typ &&& _INDIRECT ≠ 0 then some (st.1.AddIndirectQuery v, st.2) else some st
  else some st

/-- The loop over `getExtendedQueries(v.X)` in the `*ssa.Send` case. -/
def sendQueries {P R : Type} (env : Env P R) (X : Value) :
    List (List Char) → Config P × PointerResult P R → Option (Config P × PointerResult P R)
  | [], st => some st
  | query :: rest, st =>
    match st.1.AddExtendedQuery env X query with
    | none => none
    | some (ptr, config) =>
      sendQueries env X rest
        (config, { st.2 with
          PayloadQueries := mapSet st.2.PayloadQueries X ((st.2.PayloadQueries X).getD [] ++ [ptr]) })

/-- The type switch on an instruction in `collectPtsToQueries`. -/
def visitInstr {P R : Type} (env : Env P R) (inc : IncludeType)
    (st : Config P × PointerResult P R) : Instr → Option (Config P × PointerResult P R)
  | .Call callee v =>
    match maybeAdd env inc st callee with
    | none => none
    | some st => maybeAdd env inc st v
  | .Range _ => some st
  | .Val v => maybeAdd env inc st v
  | .Send _ X => sendQueries env X (getExtendedQueries X) st
  | .Other => some st

/-- The body of the loop over the functions in `collectPtsToQueries`. -/
def visitFunction {P R : Type} (env : Env P R) (inc : IncludeType)
    (st : Config P × PointerResult P R) (fn : SSAFunction) :
    Option (Config P × PointerResult P R) :=
  match fn.Params.foldlM (maybeAdd env inc) st with
  | none => none
  | some st =>
    match fn.FreeVars.foldlM (maybeAdd env inc) st with
    | none => none
    | some st => fn.Blocks.foldlM (fun st block => block.foldlM (visitInstr env inc) st) st

/-- The Go function `collectPtsToQueries`: the configuration with the queries added
and the result with its two maps, or `none` when a registration of an extended
query fails and the run stops in `log.Fatalf`. -/
def collectPtsToQueries {P R : Type} (env : Env P R) (prog : Program) (config : Config P)
    (inc : IncludeType) : Option (Config P × PointerResult P R) :=
  let ptResult : PointerResult P R :=
    { Result := none, CondQueries := fun _ => none, PayloadQueries := fun _ => none }
  prog.foldlM (visitFunction env inc) (config, ptResult)

/-- The Go function `Andersen`: `none` when the collection stops fatally or the
solver fails (`os.Exit(1)`). -/
def Andersen {P R : Type} (env : Env P R) (prog : Program) (mains : List Nat)
    (inc : IncludeType) : Option (PointerResult P R) :=
  let a_config : Config P :=
    { Mains := mains, BuildCallGraph := true, Queries := [], IndirectQueries := [],
      extendedQueries := [] }
  match collectPtsToQueries env prog a_config inc with
  | none => none
  | some (a_config, ptResult) =>
    match env.Analyze a_config with
    | none => none
    | some result => some { ptResult with Result := some result }

/-! ## Specification-side view of the collection -/

/-- Spec-side: the two things the collector does while it walks a program: it hands
a value to `maybeAdd`, or it meets a send of the operand `X`. -/
inductive Event
  | visit (v : Value)
  | send (X : Value)
  deriving DecidableEq

/-- Spec-side: the events of one instruction. -/
def instrEvents : Instr → List Event
  | .Call callee v => [.visit callee, .visit v]
  | .Range _ => []
  | .Val v => [.visit v]
  | .Send _ X => [.send X]
  | .Other => []

/-- Spec-side: the events of one function: parameters, free variables, then the
instructions block by block. -/
def functionEvents (fn : SSAFunction) : List Event :=
  fn.Params.map .visit ++ (fn.FreeVars.map .visit ++
    fn.Blocks.flatMap fun block => block.flatMap instrEvents)

/-- Spec-side: the events of a program. -/
def programEvents (prog : Program) : List Event := prog.flatMap functionEvents

/-- Spec-side: the values visited by the collector, that is handed to `maybeAdd`. -/
def visited (prog : Program) : List Value :=
  (programEvents prog).filterMap fun
    | .visit v => some v
    | .send _ => none

/-- Spec-side: the operands of the send instructions of a program. -/
def sentOperands (prog : Program) : List Value :=
  (programEvents prog).filterMap fun
    | .visit _ => none
    | .send X => some X

/-- The opaque iterator type of a `Range` instruction; it is none of the types
`checkType` tells apart. -/
def rangeIterType : GoType := .Basic ['i', 't', 'e', 'r']

/-- Spec-side: the value an instruction produces, if it produces one. -/
def Instr.value : Instr → Option Value
  | .Call _ v => some v
  | .Range id => some ⟨id, rangeIterType, false, false⟩
  | .Val v => some v
  | .Send _ _ => none
  | .Other => none

/-- Spec-side: the parameters, the free variables and the value-producing
instructions of a program. -/
def programValues (prog : Program) : List Value :=
  prog.flatMap fun fn =>
    fn.Params ++ (fn.FreeVars ++ fn.Blocks.flatMap fun block => block.filterMap Instr.value)

/-- Spec-side: the classification of the value includes `_DIRECT`. -/
def includesDirect (inc : IncludeType) (v : Value) : Bool :=
  checkType inc v.type &&& _DIRECT != 0

/-- Spec-side: the classification of the value includes `_INDIRECT`. -/
def includesIndirect (inc : IncludeType) (v : Value) : Bool :=
  checkType inc v.type &&& _INDIRECT != 0

/-- Spec-side: the static type of the value is, after named unwrapping, a pointer
to the type `sync.Cond`. -/
def isCondPointer {P R : Type} (env : Env P R) (v : Value) : Bool :=
  match v.type.Underlying with
  | .Pointer elem => env.IsNamedTypeStrict elem syncName condName
  | _ => false

/-- Spec-side: the value gets an extended query for its locker field when it is
visited. -/
def condApplies {P R : Type} (env : Env P R) (inc : IncludeType) (v : Value) : Bool :=
  includesDirect inc v && (!env.SkipSync && (v.isAlloc && isCondPointer env v))

/-- Spec-side: what an extended query is registered for. -/
inductive ReqKind
  | cond
  | payload
  deriving DecidableEq

/-- Spec-side: a registration of an extended query: its purpose, the root value and
the path. -/
structure Request where
  kind : ReqKind
  v : Value
  path : List Char
  deriving DecidableEq

/-- Spec-side: the registrations of one event. -/
def eventRequests {P R : Type} (env : Env P R) (inc : IncludeType) : Event → List Request
  | .visit v => if condApplies env inc v then [⟨.cond, v, lockerPath⟩] else []
  | .send X => (getExtendedQueries X).map fun q => ⟨.payload, X, q⟩

/-- Spec-side: the registrations of extended queries the collector asks for on a
program, in order. -/
def requests {P R : Type} (env : Env P R) (inc : IncludeType) (prog : Program) : List Request :=
  (programEvents prog).flatMap (eventRequests env inc)

/-- Spec-side: the registrations with the pointers handed out, when `k` extended
queries were registered before; `none` when one of them fails. -/
def answers {P R : Type} (env : Env P R) : Nat → List Request → Option (List (Request × P))
  | _, [] => some []
  | k, r :: rs =>
    match env.AddExtendedQuery k r.v r.path with
    | none => none
    | some ptr =>
      match answers env (k + 1) rs with
      | none => none
      | some rest => some ((r, ptr) :: rest)

/-- Spec-side: the pointers handed out for the registrations of kind `kind` on the
value `X`, in order. -/
def pointersFor {P : Type} (kind : ReqKind) (X : Value) (ans : List (Request × P)) : List P :=
  ans.filterMap fun a => if a.1.kind = kind ∧ a.1.v = X then some a.2 else none

/-- Spec-side: the effect of one answered registration on the result maps. -/
def applyAnswer {P R : Type} (r : PointerResult P R) (a : Request × P) : PointerResult P R :=
  match a.1.kind with
  | .cond => { r with CondQueries := mapSet r.CondQueries a.1.v a.2 }
  | .payload =>
    { r with PayloadQueries :=
        mapSet r.PayloadQueries a.1.v ((r.PayloadQueries a.1.v).getD [] ++ [a.2]) }

/-- Spec-side: the direct queries of one event. -/
def eventDirect (inc : IncludeType) : Event → List Value
  | .visit v => if includesDirect inc v then [v] else []
  | .send _ => []

/-- Spec-side: the indirect queries of one event. -/
def eventIndirect (inc : IncludeType) : Event → List Value
  | .visit v => if includesIndirect inc v then [v] else []
  | .send _ => []

/-- Spec-side: the configuration after events with the given direct and indirect
queries and answered registrations. -/
def extendConfig {P : Type} (c : Config P) (direct indirect : List Value)
    (ans : List (Request × P)) : Config P :=
  { c with
    Queries := c.Queries ++ direct
    IndirectQueries := c.IndirectQueries ++ indirect
    extendedQueries := c.extendedQueries ++ ans.map fun a => (a.1.v, a.1.path, a.2) }

/-- The step of the collector on one event. -/
def stepEvent {P R : Type} (env : Env P R) (inc : IncludeType)
    (st : Config P × PointerResult P R) : Event → Option (Config P × PointerResult P R)
  | .visit v => maybeAdd env inc st v
  | .send X => sendQueries env X (getExtendedQueries X) st

/-! ## Abstract memory (`analysis/lattice`) -/

/-- Modelled from the spec: the addressable locations of the package
`analysis/location`, which is not among the sources.  An allocation-site location
is the triple of goroutine, calling context and allocation site, and two of them
are equal when the three components are; the Top location is a single
distinguished location. -/
inductive AddressableLocation
  | AllocationSiteLocation (Goro Context Site : Nat)
  | TopLocation
  deriving DecidableEq

/-- Modelled from the spec: the type `Memory` of the package `analysis/lattice`,
of which only the test file is among the sources: an immutable mapping from
addressable locations to an abstract value and a multi-allocation flag. -/
structure Memory (A : Type) where
  cells : AddressableLocation → Option (A × Bool)

/-- Modelled from the spec: the empty memory, `Elements().Memory()` in the test. -/
def Memory.empty {A : Type} : Memory A := ⟨fun _ => none⟩

/-- Modelled from the spec: `allocate(location, value, forceMultialloc)`, whose
code is not among the sources: if the location is unmapped it stores the value
with the flag `forceMultialloc`; if it is mapped it stores the join of the existing
value and the value, with the flag true. -/
def Memory.Allocate {A : Type} (join : A → A → A) (m : Memory A) (l : AddressableLocation)
    (v : A) (forceMultialloc : Bool) : Memory A :=
  match m.cells l with
  | none => ⟨fun x => if x = l then some (v, forceMultialloc) else m.cells x⟩
  | some (old, _) => ⟨fun x => if x = l then some (join old v, true) else m.cells x⟩

/-- Modelled from the spec: `isMultialloc(location)`, whose code is not among the
sources: true for the Top location unconditionally, and otherwise the flag stored
for the location (false when nothing is stored). -/
def Memory.IsMultialloc {A : Type} (m : Memory A) : AddressableLocation → Bool
  | .TopLocation => true
  | l =>
    match m.cells l with
    | none => false
    | some (_, flag) => flag

/-- Modelled from the spec: the abstract value a location holds. -/
def Memory.Get {A : Type} (m : Memory A) (l : AddressableLocation) : Option A :=
  (m.cells l).map Prod.fst

/-- A sequence of `Allocate` calls, each with its location, value and flag. -/
def Memory.AllocateAll {A : Type} (join : A → A → A) (m : Memory A)
    (calls : List (AddressableLocation × A × Bool)) : Memory A :=
  calls.foldl (fun m call => m.Allocate join call.1 call.2.1 call.2.2) m

/-- The allocation-site location `al` of the test `TestMemory`. -/
def exampleSite : AddressableLocation := .AllocationSiteLocation 0 0 0

/-! ## Specification-side view of the extended queries -/

/-- The type `getExtendedQueries` descends from: the underlying type of the value,
with one pointer level removed. -/
def rootType (v : Value) : GoType :=
  match v.type.Underlying with
  | .Pointer elem => elem
  | t => t

/-- Spec-side: a field name the path grammar can express: non-empty, without a dot
and without an open square bracket. -/
def LegalName (name : List Char) : Prop := name ≠ [] ∧ ∀ c ∈ name, c ≠ '.' ∧ c ≠ '['

mutual
/-- Spec-side: the names of the struct fields of the type, as far as the descent
through struct-typed fields meets them, are legal. -/
def LegalFieldNames : GoType → Prop
  | .Named _ _ u => LegalFieldNames u
  | .Struct fs => LegalFields fs
  | _ => True
/-- Spec-side: the names of the fields of the list are legal, and so are the names
inside their types. -/
def LegalFields : FieldList → Prop
  | .nil => True
  | .cons name ty rest => LegalName name ∧ LegalFieldNames ty ∧ LegalFields rest
end

/-! ## SSA value sets (`utils/ssa-value-set.go`) -/

/-- Modelled from the spec: the persistent tree `tree.Tree[ssa.Value, struct{}]` of
the package `utils/tree`, which is not among the sources: a finite map from values
to the unit value.  The model lists the keys, without repetition, in the order in
which `ForEach` meets them. -/
structure Tree (V : Type) where
  keys : List V
  deriving DecidableEq

/-- Modelled from the spec: `tree.NewTree`, the empty tree. -/
def NewTree {V : Type} : Tree V := ⟨[]⟩

/-- Modelled from the spec: the method `Lookup` of the tree, reduced to whether the
key is found. -/
def Tree.Lookup {V : Type} [DecidableEq V] (t : Tree V) (v : V) : Bool := decide (v ∈ t.keys)

/-- Modelled from the spec: the method `InsertOrMerge` of the tree: a key that is
present stays (its unit value is merged), a new key is added. -/
def Tree.InsertOrMerge {V : Type} [DecidableEq V] (t : Tree V) (v : V) : Tree V :=
  if t.Lookup v then t else ⟨t.keys ++ [v]⟩

/-- Modelled from the spec: the method `Size` of the tree. -/
def Tree.Size {V : Type} (t : Tree V) : Nat := t.keys.length

/-- Modelled from the spec: the method `Equal` of the tree with a comparison of
values that always succeeds: the two trees have the same keys. -/
def Tree.Equal {V : Type} [DecidableEq V] (a b : Tree V) : Bool :=
  a.keys.all (fun v => b.Lookup v) && b.keys.all (fun v => a.Lookup v)

/-- The Go type `SSAValueSet`, a struct around the tree. -/
structure SSAValueSet (V : Type) where
  tree : Tree V
  deriving DecidableEq

/-- The method `Add`. -/
def SSAValueSet.Add {V : Type} [DecidableEq V] (s : SSAValueSet V) (v : V) : SSAValueSet V :=
  ⟨s.tree.InsertOrMerge v⟩

/-- The Go function `MakeSSASet`. -/
def MakeSSASet {V : Type} [DecidableEq V] (vs : List V) : SSAValueSet V :=
  vs.foldl (fun t v => t.Add v) ⟨NewTree⟩

/-- The method `Contains`. -/
def SSAValueSet.Contains {V : Type} [DecidableEq V] (s : SSAValueSet V) (v : V) : Bool :=
  s.tree.Lookup v

/-- The method `Size`, promoted from the tree. -/
def SSAValueSet.Size {V : Type} (s : SSAValueSet V) : Nat := s.tree.Size

/-- The method `Entries`: the elements in the order `ForEach` meets them. -/
def SSAValueSet.Entries {V : Type} (s : SSAValueSet V) : List V := s.tree.keys

/-- The method `Meet`.  The comparison `s1 == s2` of the two structs is the equality
of the trees; the loop collects the elements of `s1` that `s2` contains. -/
def SSAValueSet.Meet {V : Type} [DecidableEq V] (s1 s2 : SSAValueSet V) : SSAValueSet V :=
  if s1 = s2 then s1
  else
    let vs := s1.Entries.filter fun v => s2.Contains v
    MakeSSASet vs

/-- What the hasher reads from an `ssa.Value` and takes from outside the file: the
texts `v.Name()` and `v.String()`, the text of the position of `v` when `v.Parent()`
is not nil (`none` when it is nil), the text of the address of `v` (the verb `%p`),
the hash `PointerHasher.Hash(v)`, the function `HashCombine`, and the library
function `sort.Slice`, given here the order `less` and the slice and returning the
slice as the library leaves it. -/
structure HashEnv (V : Type) where
  Name : V → List Char
  String : V → List Char
  Position : V → Option (List Char)
  Address : V → List Char
  PointerHash : V → Nat
  HashCombine : List Nat → Nat
  SortSlice : (V → V → Bool) → List V → List V

/-- The closure `sortingKey` of `ssaValueSetHasher.Hash`. -/
def sortingKey {V : Type} (env : HashEnv V) (v : V) : List Char :=
  match env.Position v with
  | some pos => env.Name v ++ env.String v ++ pos
  | none => env.Name v ++ env.String v ++ env.Address v

/-- The method `ssaValueSetHasher.Hash`. -/
def ssaValueSetHasher.Hash {V : Type} (env : HashEnv V) (s : SSAValueSet V) : Nat :=
  let vs := s.Entries
  let vs := env.SortSlice (fun a b => decide (sortingKey env a < sortingKey env b)) vs
  let hashes := vs.map env.PointerHash
  env.HashCombine hashes

/-- The method `ssaValueSetHasher.Equal`. -/
def ssaValueSetHasher.Equal {V : Type} [DecidableEq V] (a b : SSAValueSet V) : Bool :=
  a.tree.Equal b.tree

/-- What every sorting procedure guarantees for `sort.Slice` under the order of the
sorting keys: the result is a rearrangement of the slice in which the keys
ascend.  The order of elements with the same key is left open. -/
def SortsByKey {V : Type} (env : HashEnv V) : Prop :=
  ∀ l : List V,
    (env.SortSlice (fun a b => decide (sortingKey env a < sortingKey env b)) l).Perm l ∧
    ((env.SortSlice (fun a b => decide (sortingKey env a < sortingKey env b)) l).map
      (sortingKey env)).Sorted (· ≤ ·)

/-! ## Example types -/

/-- The Go type `int`. -/
def intType : GoType := .Basic ['i', 'n', 't']

/-- The fields of `exampleWrapper`. -/
def exampleWrapperFields : FieldList :=
  .cons ['O', 'b', 'j', 'e', 'c', 't']
    (.Named ['m', 'a', 'i', 'n'] ['O', 'b', 'j', 'e', 'c', 't']
      (.Struct (.cons ['c', 'h'] (.Chan intType) .nil)))
    (.cons ['d', 'o', 'n', 'e'] (.Chan intType) .nil)

/-- The declared type `Wrapper`, a struct that embeds the struct `Object` (one field
`ch`, a channel of `int`) and has a channel field `done`. -/
def exampleWrapper : GoType :=
  .Named ['m', 'a', 'i', 'n'] ['W', 'r', 'a', 'p', 'p', 'e', 'r'] (.Struct exampleWrapperFields)

/-- The fields of `exampleGuarded`. -/
def exampleGuardedFields : FieldList :=
  .cons ['p'] (.Pointer (.Chan intType))
    (.cons ['s'] (.Slice (.Chan intType))
      (.cons ['m'] (.Map intType (.Chan intType))
        (.cons ['a'] (.Array 2 (.Chan intType))
          (.cons ['i'] .Interface
            (.cons ['w'] (.Pointer exampleWrapper)
              (.cons ['n'] (.Struct (.cons ['q'] (.Pointer (.Chan intType)) .nil)) .nil))))))

/-- A struct whose channels all lie behind a pointer, slice, map, array or interface
field, one of them inside a nested struct. -/
def exampleGuarded : GoType := .Struct exampleGuardedFields

/-! ## Example program -/

/-- An instance of the helper `IsNamedTypeStrict` for the examples: the type is the
declared type of the given package and name. -/
def namedTypeStrict : GoType → List Char → List Char → Bool
  | .Named pkg name _, p, n => decide (pkg = p ∧ name = n)
  | _, _, _ => false

/-- An environment for the examples: pointers are numbers, the `k`-th registration
of an extended query is answered with the pointer `100 + k`, and the solver
answers with the number of direct queries. -/
def exampleEnv (skipSync : Bool) : Env Nat Nat :=
  { SkipSync := skipSync, IsNamedTypeStrict := namedTypeStrict,
    AddExtendedQuery := fun k _ _ => some (100 + k),
    Analyze := fun c => some c.Queries.length }

/-- An environment whose solver refuses every extended query. -/
def refusingEnv : Env Nat Nat :=
  { SkipSync := false, IsNamedTypeStrict := namedTypeStrict,
    AddExtendedQuery := fun _ _ _ => none,
    Analyze := fun c => some c.Queries.length }

/-- The configuration `Andersen` starts from. -/
def freshConfig (P : Type) (mains : List Nat) : Config P :=
  { Mains := mains, BuildCallGraph := true, Queries := [], IndirectQueries := [],
    extendedQueries := [] }

/-- The declared type `sync.Cond`, cut down to its locker field `L`. -/
def condType : GoType := .Named syncName condName (.Struct (.cons ['L'] .Interface .nil))

/-- A heap allocation of a `sync.Cond`. -/
def exampleCondHeap : Value := ⟨1, .Pointer condType, true, true⟩
/-- A stack allocation of a `sync.Cond`. -/
def exampleCondStack : Value := ⟨2, .Pointer condType, true, false⟩
/-- A channel parameter. -/
def exampleChan : Value := ⟨3, .Chan exampleWrapper, false, false⟩
/-- A value of the struct type `Wrapper`, sent over the channel. -/
def examplePayload : Value := ⟨4, exampleWrapper, false, false⟩
/-- A function value that is called. -/
def exampleCallee : Value := ⟨5, .Signature, false, false⟩
/-- A call that returns a pointer to a channel. -/
def exampleCall : Value := ⟨6, .Pointer (.Chan intType), false, false⟩

/-- A program of one function with one block. -/
def exampleProgram : Program :=
  [{ Params := [exampleChan], FreeVars := [],
     Blocks := [[.Val exampleCondHeap, .Val exampleCondStack, .Call exampleCallee exampleCall,
                 .Send exampleChan examplePayload, .Range 9, .Other,
                 .Send exampleChan examplePayload]] }]

/-! ## Auxiliary facts: the scanner -/

theorem fieldChar_eq_true {c : Char} : fieldChar c = true ↔ c ≠ '.' ∧ c ≠ '[' := by
  simp [fieldChar]

/-- A successful attempt returns a token and splits the input into it and the rest. -/
theorem matchAt_some {s m rest : List Char} (h : matchAt s = some (m, rest)) :
    IsToken m ∧ m ++ rest = s := by
  cases s with
  | nil => simp [matchAt] at h
  | cons c cs =>
    simp only [matchAt] at h
    by_cases hc : c = '.'
    · rw [if_pos hc] at h
      by_cases hne : cs.takeWhile fieldChar = []
      · rw [if_pos hne] at h; exact absurd h (by simp)
      · rw [if_neg hne] at h
        simp only [Option.some.injEq, Prod.mk.injEq] at h
        obtain ⟨rfl, rfl⟩ := h
        refine ⟨Or.inr ⟨cs.takeWhile fieldChar, hne, ?_, by rw [hc]⟩, ?_⟩
        · intro a ha
          exact fieldChar_eq_true.mp (List.mem_takeWhile_imp ha)
        · simp
    · rw [if_neg hc] at h
      by_cases hb : c = '[' ∧ cs.take 2 = ['*', ']']
      · rw [if_pos hb] at h
        simp only [Option.some.injEq, Prod.mk.injEq] at h
        obtain ⟨rfl, rfl⟩ := h
        exact ⟨Or.inl (by rw [hb.1, hb.2]), by simp⟩
      · rw [if_neg hb] at h; exact absurd h (by simp)

theorem IsToken.ne_nil {t : List Char} (h : IsToken t) : t ≠ [] := by
  rcases h with rfl | ⟨name, -, -, rfl⟩ <;> simp

/-- The first character of a token is outside the class of field characters. -/
theorem IsToken.head {t : List Char} (h : IsToken t) :
    ∃ c cs, t = c :: cs ∧ fieldChar c = false := by
  rcases h with rfl | ⟨name, -, -, rfl⟩
  · exact ⟨'[', ['*', ']'], rfl, by decide⟩
  · exact ⟨'.', name, rfl, by decide⟩

/-- A concatenation of tokens is empty or starts outside the field characters. -/
theorem flatten_tokens_head {toks : List (List Char)} (h : ∀ t ∈ toks, IsToken t) :
    toks.flatten = [] ∨ ∃ c cs, toks.flatten = c :: cs ∧ fieldChar c = false := by
  cases toks with
  | nil => exact Or.inl rfl
  | cons t ts =>
    obtain ⟨c, cs, rfl, hc⟩ := (h t (List.mem_cons_self _ _)).head
    exact Or.inr ⟨c, cs ++ ts.flatten, by simp, hc⟩

/-- An attempt at the head of a token followed by a token boundary matches exactly
the token. -/
theorem matchAt_token {t rest : List Char} (ht : IsToken t)
    (hrest : rest = [] ∨ ∃ c cs, rest = c :: cs ∧ fieldChar c = false) :
    matchAt (t ++ rest) = some (t, rest) := by
  rcases ht with rfl | ⟨name, hne, hall, rfl⟩
  · simp [matchAt]
  · have hall2 : ∀ a ∈ name, fieldChar a = true := fun a ha => fieldChar_eq_true.mpr (hall a ha)
    have htw : rest.takeWhile fieldChar = [] := by
      rcases hrest with rfl | ⟨c, cs, rfl, hc⟩
      · rfl
      · simp [List.takeWhile_cons, hc]
    have hdw : rest.dropWhile fieldChar = rest := by
      rcases hrest with rfl | ⟨c, cs, rfl, hc⟩
      · rfl
      · simp [List.dropWhile_cons, hc]
    have h1 : (name ++ rest).takeWhile fieldChar = name := by
      rw [List.takeWhile_append_of_pos hall2, htw, List.append_nil]
    have h2 : (name ++ rest).dropWhile fieldChar = rest := by
      rw [List.dropWhile_append_of_pos hall2, hdw]
    simp [matchAt, h1, h2, hne]

/-- The iteration bound of `FindAllString` is generous: any two bounds of at least
the length of the input give the same matches. -/
theorem findAllFuel_stable : ∀ (n m : Nat) (s : List Char), s.length ≤ n → s.length ≤ m →
    findAllFuel n s = findAllFuel m s := by
  intro n
  induction n with
  | zero =>
    intro m s hn _
    have : s = [] := List.length_eq_zero.mp (Nat.le_zero.mp hn)
    subst this
    cases m <;> rfl
  | succ n ih =>
    intro m s hn hm
    cases s with
    | nil => cases m <;> rfl
    | cons c cs =>
      cases m with
      | zero => simp at hm
      | succ m =>
        simp only [findAllFuel]
        simp only [List.length_cons, Nat.add_le_add_iff_right] at hn hm
        cases hma : matchAt (c :: cs) with
        | none => exact ih m cs hn hm
        | some r =>
          obtain ⟨mt, rest⟩ := r
          obtain ⟨htok, happ⟩ := matchAt_some hma
          have hlen : rest.length ≤ cs.length := by
            have h1 := congrArg List.length happ
            have h2 : 0 < mt.length := List.length_pos.mpr htok.ne_nil
            simp only [List.length_append, List.length_cons] at h1
            omega
          simp only
          rw [ih m rest (le_trans hlen hn) (le_trans hlen hm)]

theorem FindAllString_nil : FindAllString [] = [] := rfl

/-- Unfolding of the scan at a position where a match starts. -/
theorem FindAllString_match {s m rest : List Char} (h : matchAt s = some (m, rest)) :
    FindAllString s = m :: FindAllString rest := by
  obtain ⟨htok, happ⟩ := matchAt_some h
  cases s with
  | nil => simp [matchAt] at h
  | cons c cs =>
    have hlen : rest.length ≤ cs.length := by
      have h1 := congrArg List.length happ
      have h2 : 0 < m.length := List.length_pos.mpr htok.ne_nil
      simp only [List.length_append, List.length_cons] at h1
      omega
    simp only [FindAllString, List.length_cons, findAllFuel, h]
    rw [findAllFuel_stable cs.length rest.length rest hlen le_rfl]

/-- Unfolding of the scan at a position where no match starts. -/
theorem FindAllString_skip {c : Char} {cs : List Char} (h : matchAt (c :: cs) = none) :
    FindAllString (c :: cs) = FindAllString cs := by
  simp only [FindAllString, List.length_cons, findAllFuel, h]

/-- Every match found by the scan is a token of the grammar. -/
theorem findAllFuel_tokens : ∀ (n : Nat) (s : List Char), ∀ t ∈ findAllFuel n s, IsToken t := by
  intro n
  induction n with
  | zero => intro s t ht; simp [findAllFuel] at ht
  | succ n ih =>
    intro s t ht
    cases s with
    | nil => simp [findAllFuel] at ht
    | cons c cs =>
      simp only [findAllFuel] at ht
      cases hma : matchAt (c :: cs) with
      | none => rw [hma] at ht; exact ih cs t ht
      | some r =>
        obtain ⟨mt, rest⟩ := r
        rw [hma] at ht
        simp only [List.mem_cons] at ht
        rcases ht with rfl | ht
        · exact (matchAt_some hma).1
        · exact ih rest t ht

/-- The scan of a concatenation of tokens returns the tokens. -/
theorem FindAllString_tokens : ∀ (toks : List (List Char)), (∀ t ∈ toks, IsToken t) →
    FindAllString toks.flatten = toks := by
  intro toks
  induction toks with
  | nil => intro _; rfl
  | cons t ts ih =>
    intro h
    have hts : ∀ t ∈ ts, IsToken t := fun u hu => h u (List.mem_cons_of_mem _ hu)
    have hm := matchAt_token (h t (List.mem_cons_self _ _)) (flatten_tokens_head hts)
    rw [List.flatten_cons, FindAllString_match hm, ih hts]

/-- Decoding a token and encoding the access action again gives the token back. -/
theorem encodeStep_decode {f : List Char} (h : IsToken f) :
    encodeStep (if f = ['[', '*', ']'] then Access.ArrayAccess else Access.FieldAccess (f.drop 1))
      = f := by
  rcases h with rfl | ⟨name, -, -, rfl⟩
  · simp [encodeStep]
  · simp [encodeStep]

/-- The text of a legal access action is a token, and decoding it gives the action. -/
theorem LegalStep.token {a : Access} (h : LegalStep a) :
    IsToken (encodeStep a) ∧
    (if encodeStep a = ['[', '*', ']'] then Access.ArrayAccess
      else Access.FieldAccess ((encodeStep a).drop 1)) = a := by
  cases a with
  | ArrayAccess => exact ⟨Or.inl rfl, by simp [encodeStep]⟩
  | FieldAccess f =>
    obtain ⟨hne, hall⟩ := h
    exact ⟨Or.inr ⟨f, hne, hall, rfl⟩, by simp [encodeStep]⟩

/-! ## Access-path decoding: `SplitLabel` -/

/-- The value computed by `SplitLabel` on a path of the grammar. -/
theorem SplitLabel_tokens {V : Type} (v : V) (toks : List (List Char))
    (h : ∀ t ∈ toks, IsToken t) :
    SplitLabel ⟨v, toks.flatten⟩ = some (v, toks.map fun f =>
      if f = ['[', '*', ']'] then Access.ArrayAccess else Access.FieldAccess (f.drop 1)) := by
  simp only [SplitLabel]
  by_cases hp : toks.flatten = []
  · have : toks = [] := by
      cases toks with
      | nil => rfl
      | cons t ts =>
        have := (h t (List.mem_cons_self _ _)).ne_nil
        simp only [List.flatten_cons, List.append_eq_nil] at hp
        exact absurd hp.1 this
    subst this
    simp
  · rw [if_neg hp, FindAllString_tokens toks h]
    simp

/-- Claim C1: for every sequence of access steps, each an array access or a field
access with a non-empty name free of dots and open square brackets, `SplitLabel`
applied to the raw path built from the steps returns normally, with the root value
and exactly that sequence of steps. -/
theorem SplitLabel_encodePath {V : Type} (v : V) (steps : List Access)
    (h : ∀ a ∈ steps, LegalStep a) :
    SplitLabel ⟨v, encodePath steps⟩ = some (v, steps) := by
  have htok : ∀ t ∈ steps.map encodeStep, IsToken t := by
    intro t ht
    obtain ⟨a, ha, rfl⟩ := List.mem_map.mp ht
    exact (h a ha).token.1
  rw [encodePath, SplitLabel_tokens v _ htok, List.map_map]
  congr 2
  calc List.map _ steps = List.map id steps :=
        List.map_congr_left fun a ha => (h a ha).token.2
    _ = steps := List.map_id steps

/-- Witness of C1 on the path `.a[*].bc`. -/
theorem SplitLabel_encodePath_witness :
    (∀ a ∈ [Access.FieldAccess ['a'], Access.ArrayAccess, Access.FieldAccess ['b', 'c']],
      LegalStep a) ∧
    SplitLabel (⟨7, ['.', 'a', '[', '*', ']', '.', 'b', 'c']⟩ : Label Nat)
      = some (7, [Access.FieldAccess ['a'], Access.ArrayAccess, Access.FieldAccess ['b', 'c']]) :=
  ⟨by simp [LegalStep],
   SplitLabel_encodePath 7
     [Access.FieldAccess ['a'], Access.ArrayAccess, Access.FieldAccess ['b', 'c']]
     (by simp [LegalStep])⟩

/-- Claim C2: `SplitLabel` returns normally exactly on the raw paths that are a
concatenation of zero or more tokens, each the text `[*]` or a dot followed by one
or more characters other than a dot and an open square bracket; on every other
path it ends fatally.  Three such paths: `x.a` (no leading token), `.a..b` (an empty
field name) and `.a[0]` (a bracket not followed by `*]`). -/
theorem SplitLabel_returns_iff_grammar {V : Type} (l : Label V) :
    ((∃ r, SplitLabel l = some r) ↔ InGrammar l.path) ∧
    (SplitLabel l = none ↔ ¬ InGrammar l.path) ∧
    SplitLabel (⟨l.value, ['x', '.', 'a']⟩ : Label V) = none ∧
    SplitLabel (⟨l.value, ['.', 'a', '.', '.', 'b']⟩ : Label V) = none ∧
    SplitLabel (⟨l.value, ['.', 'a', '[', '0', ']']⟩ : Label V) = none := by
  have key : (∃ r, SplitLabel l = some r) ↔ InGrammar l.path := by
    constructor
    · rintro ⟨r, hr⟩
      simp only [SplitLabel] at hr
      by_cases hp : l.path = []
      · exact ⟨[], by simp, by simp [hp]⟩
      · rw [if_neg hp] at hr
        by_cases hj : (FindAllString l.path).flatten = l.path
        · exact ⟨FindAllString l.path, findAllFuel_tokens _ _, hj⟩
        · rw [if_pos hj] at hr; exact absurd hr (by simp)
    · rintro ⟨toks, htoks, hflat⟩
      obtain ⟨v, p⟩ := l
      simp only at hflat
      subst hflat
      exact ⟨_, SplitLabel_tokens v toks htoks⟩
  refine ⟨key, ?_, rfl, rfl, rfl⟩
  rw [← key]
  cases h : SplitLabel l with
  | none => simp
  | some r => simp

/-- Claim C3: whenever `SplitLabel` returns normally, encoding the returned steps
from left to right (a field access as a dot and the name, an array access as `[*]`)
and concatenating gives the raw path back, character for character; the root value
is the one of the label. -/
theorem SplitLabel_reencode {V : Type} (l : Label V) (v : V) (steps : List Access)
    (h : SplitLabel l = some (v, steps)) :
    encodePath steps = l.path ∧ v = l.value := by
  simp only [SplitLabel] at h
  by_cases hp : l.path = []
  · rw [if_pos hp] at h
    simp only [Option.some.injEq, Prod.mk.injEq] at h
    obtain ⟨rfl, rfl⟩ := h
    exact ⟨by rw [hp]; rfl, rfl⟩
  · rw [if_neg hp] at h
    by_cases hj : (FindAllString l.path).flatten = l.path
    · rw [if_neg (not_not.mpr hj)] at h
      simp only [Option.some.injEq, Prod.mk.injEq] at h
      obtain ⟨rfl, rfl⟩ := h
      refine ⟨?_, rfl⟩
      rw [encodePath, List.map_map]
      conv_rhs => rw [← hj]
      congr 1
      calc List.map _ (FindAllString l.path) = List.map id (FindAllString l.path) :=
            List.map_congr_left fun f hf => encodeStep_decode (findAllFuel_tokens _ _ f hf)
        _ = FindAllString l.path := List.map_id _
    · rw [if_pos hj] at h; exact absurd h (by simp)

/-- Witness of C3 on the path `[*].ch`. -/
theorem SplitLabel_reencode_witness :
    SplitLabel (⟨3, ['[', '*', ']', '.', 'c', 'h']⟩ : Label Nat)
      = some (3, [Access.ArrayAccess, Access.FieldAccess ['c', 'h']]) ∧
    encodePath [Access.ArrayAccess, Access.FieldAccess ['c', 'h']]
      = ['[', '*', ']', '.', 'c', 'h'] :=
  ⟨by decide,
   (SplitLabel_reencode (⟨3, ['[', '*', ']', '.', 'c', 'h']⟩ : Label Nat) 3
     [Access.ArrayAccess, Access.FieldAccess ['c', 'h']] (by decide)).1⟩

/-! ## Type classification: `checkType` -/

theorem Underlying_ne_Named : ∀ (t : GoType) (pkg name : List Char) (u : GoType),
    t.Underlying ≠ .Named pkg name u
  | .Named _ _ u0, pkg, name, u => by
    simp only [GoType.Underlying]; exact Underlying_ne_Named u0 pkg name u
  | .Basic _, _, _, _ => by simp [GoType.Underlying]
  | .Chan _, _, _, _ => by simp [GoType.Underlying]
  | .Signature, _, _, _ => by simp [GoType.Underlying]
  | .Interface, _, _, _ => by simp [GoType.Underlying]
  | .Map _ _, _, _, _ => by simp [GoType.Underlying]
  | .Slice _, _, _, _ => by simp [GoType.Underlying]
  | .Pointer _, _, _, _ => by simp [GoType.Underlying]
  | .Array _ _, _, _, _ => by simp [GoType.Underlying]
  | .Struct _, _, _, _ => by simp [GoType.Underlying]
  | .Tuple, _, _, _ => by simp [GoType.Underlying]

/-- A type classifies as its underlying type does. -/
theorem checkType_Underlying (inc : IncludeType) : ∀ t : GoType,
    checkType inc t = checkType inc t.Underlying
  | .Named _ _ u => by
    simp only [checkType, GoType.Underlying]; exact checkType_Underlying inc u
  | .Basic _ => rfl
  | .Chan _ => rfl
  | .Signature => rfl
  | .Interface => rfl
  | .Map _ _ => rfl
  | .Slice _ => rfl
  | .Pointer _ => rfl
  | .Array _ _ => rfl
  | .Struct _ => rfl
  | .Tuple => rfl

/-- The classification depends on the configuration only through the six
disjunctions `All || flag`. -/
theorem checkType_congr (i1 i2 : IncludeType)
    (hc : (i1.All || i1.Chan) = (i2.All || i2.Chan))
    (hf : (i1.All || i1.Function) = (i2.All || i2.Function))
    (hi : (i1.All || i1.Interface) = (i2.All || i2.Interface))
    (hm : (i1.All || i1.Map) = (i2.All || i2.Map))
    (hs : (i1.All || i1.Slice) = (i2.All || i2.Slice))
    (hp : (i1.All || i1.Pointer) = (i2.All || i2.Pointer)) :
    ∀ t : GoType, checkType i1 t = checkType i2 t
  | .Named _ _ u => by
    simp only [checkType]; exact checkType_congr i1 i2 hc hf hi hm hs hp u
  | .Basic _ => rfl
  | .Chan _ => by simp only [checkType, hc]
  | .Signature => by simp only [checkType, hf]
  | .Interface => by simp only [checkType, hi]
  | .Map _ _ => by simp only [checkType, hm]
  | .Slice _ => by simp only [checkType, hs]
  | .Pointer e => by
    simp only [checkType, hp, checkType_congr i1 i2 hc hf hi hm hs hp e]
  | .Array _ _ => rfl
  | .Struct _ => rfl
  | .Tuple => rfl

/-- The values `checkType` can return: `_NOT_TYPE`, `_DIRECT`, the sum
`_NOT_TYPE + _DIRECT` and the sum `_INDIRECT + _DIRECT`. -/
theorem checkType_range (inc : IncludeType) : ∀ t : GoType,
    checkType inc t = _NOT_TYPE ∨ checkType inc t = _DIRECT ∨
    checkType inc t = _NOT_TYPE + _DIRECT ∨ checkType inc t = _INDIRECT + _DIRECT
  | .Named _ _ u => by simp only [checkType]; exact checkType_range inc u
  | .Basic _ => Or.inl rfl
  | .Chan _ => by simp only [checkType]; split <;> simp
  | .Signature => by simp only [checkType]; split <;> simp
  | .Interface => by simp only [checkType]; split <;> simp
  | .Map _ _ => by simp only [checkType]; split <;> simp
  | .Slice _ => by simp only [checkType]; split <;> simp
  | .Pointer e => by
    simp only [checkType]
    split
    · split <;> simp
    · simp
  | .Array _ _ => Or.inl rfl
  | .Struct _ => Or.inl rfl
  | .Tuple => Or.inl rfl

/-- Claim C4, evaluated at the failing input: with only `Pointer` set, the type
pointer-to-`int` classifies as `_NOT_TYPE + _DIRECT`, the number 3, which is none
of `_NOT_TYPE`, `_DIRECT`, `_INDIRECT` and `_DIRECT | _INDIRECT`. -/
theorem checkType_pointer_to_untargeted :
    checkType { Pointer := true } (.Pointer (.Basic ['i', 'n', 't'])) = 3 ∧
    checkType { Pointer := true } (.Pointer (.Basic ['i', 'n', 't'])) = _NOT_TYPE + _DIRECT ∧
    checkType { Pointer := true } (.Pointer (.Basic ['i', 'n', 't']))
      ∉ [_NOT_TYPE, _DIRECT, _INDIRECT, _DIRECT ||| _INDIRECT] := by
  decide

/-- Claim C5, evaluated at the failing input: under the configuration with only
`Chan`, `Function` and `Interface` set, a channel type is targeted, yet the type
pointer-to-channel classifies as `_NOT_TYPE`, which has no `_INDIRECT` bit. -/
theorem checkType_pointer_to_chan_pointers_disabled :
    checkType standardInclude (.Chan (.Basic ['i', 'n', 't'])) ≠ _NOT_TYPE ∧
    checkType standardInclude (.Pointer (.Chan (.Basic ['i', 'n', 't']))) = _NOT_TYPE ∧
    checkType standardInclude (.Pointer (.Chan (.Basic ['i', 'n', 't']))) &&& _INDIRECT = 0 := by
  decide

/-- The pointer case in general: with `All` or `Pointer` set, a pointer to a targeted
type classifies as `_INDIRECT + _DIRECT`, and with neither set every pointer type
classifies as `_NOT_TYPE`. -/
theorem checkType_pointer_cases (inc : IncludeType) (e : GoType) :
    ((inc.All || inc.Pointer) = true → checkType inc e ≠ _NOT_TYPE →
      checkType inc (.Pointer e) = _INDIRECT + _DIRECT) ∧
    ((inc.All || inc.Pointer) = false → checkType inc (.Pointer e) = _NOT_TYPE) := by
  constructor
  · intro h1 h2
    simp only [checkType, h1, if_true, if_pos h2]
  · intro h1
    simp only [checkType, h1]
    rfl

/-- Claim C6: for every type, any two configurations with `All` set give the same
classification, whatever their per-category flags, and this classification is the
one under a configuration with every per-category flag set. -/
theorem checkType_All_dominates (t : GoType) (i1 i2 full : IncludeType)
    (h1 : i1.All = true) (h2 : i2.All = true)
    (hfull : full.Chan = true ∧ full.Interface = true ∧ full.Function = true ∧
      full.Map = true ∧ full.Slice = true ∧ full.Pointer = true) :
    checkType i1 t = checkType i2 t ∧ checkType i1 t = checkType full t := by
  obtain ⟨fc, fi, ff, fm, fs, fp⟩ := hfull
  constructor
  · exact checkType_congr i1 i2 (by simp [h1, h2]) (by simp [h1, h2]) (by simp [h1, h2])
      (by simp [h1, h2]) (by simp [h1, h2]) (by simp [h1, h2]) t
  · exact checkType_congr i1 full (by simp [h1, fc]) (by simp [h1, ff]) (by simp [h1, fi])
      (by simp [h1, fm]) (by simp [h1, fs]) (by simp [h1, fp]) t

/-- Witness of C6 on the type pointer-to-slice, with `All` alone, `All` with `Map`,
and the six per-category flags without `All`. -/
theorem checkType_All_dominates_witness :
    checkType { All := true } (.Pointer (.Slice (.Basic ['i', 'n', 't'])))
      = checkType { All := true, Map := true } (.Pointer (.Slice (.Basic ['i', 'n', 't']))) ∧
    checkType { All := true } (.Pointer (.Slice (.Basic ['i', 'n', 't'])))
      = checkType everyCategory (.Pointer (.Slice (.Basic ['i', 'n', 't']))) :=
  checkType_All_dominates (.Pointer (.Slice (.Basic ['i', 'n', 't'])))
    { All := true } { All := true, Map := true } everyCategory
    rfl rfl ⟨rfl, rfl, rfl, rfl, rfl, rfl⟩

/-- Claim C7: for every configuration and every type that, after unwrapping named
types, is a channel, function signature, interface, map or slice, `checkType`
returns `_DIRECT` when the flag of the category or `All` is set and `_NOT_TYPE`
otherwise; a named type classifies exactly as the type behind it. -/
theorem checkType_direct_categories (inc : IncludeType) (t : GoType) :
    (∀ e, t.Underlying = .Chan e →
      checkType inc t = if inc.Chan || inc.All then _DIRECT else _NOT_TYPE) ∧
    (t.Underlying = .Signature →
      checkType inc t = if inc.Function || inc.All then _DIRECT else _NOT_TYPE) ∧
    (t.Underlying = .Interface →
      checkType inc t = if inc.Interface || inc.All then _DIRECT else _NOT_TYPE) ∧
    (∀ k e, t.Underlying = .Map k e →
      checkType inc t = if inc.Map || inc.All then _DIRECT else _NOT_TYPE) ∧
    (∀ e, t.Underlying = .Slice e →
      checkType inc t = if inc.Slice || inc.All then _DIRECT else _NOT_TYPE) ∧
    (∀ pkg name, checkType inc (.Named pkg name t) = checkType inc t) ∧
    checkType inc t = checkType inc t.Underlying := by
  refine ⟨?_, ?_, ?_, ?_, ?_, fun _ _ => rfl, checkType_Underlying inc t⟩
  · intro e h
    rw [checkType_Underlying, h]; simp only [checkType, Bool.or_comm]
  · intro h
    rw [checkType_Underlying, h]; simp only [checkType, Bool.or_comm]
  · intro h
    rw [checkType_Underlying, h]; simp only [checkType, Bool.or_comm]
  · intro k e h
    rw [checkType_Underlying, h]; simp only [checkType, Bool.or_comm]
  · intro e h
    rw [checkType_Underlying, h]; simp only [checkType, Bool.or_comm]

/-- Witness of C7: a named channel, a named signature, an interface, a named map and
a slice, under the configuration with `Chan`, `Function` and `Interface` set. -/
theorem checkType_direct_categories_witness :
    checkType standardInclude (.Named ['m'] ['C'] (.Chan (.Basic ['i', 'n', 't']))) = _DIRECT ∧
    checkType standardInclude (.Named ['m'] ['F'] .Signature) = _DIRECT ∧
    checkType standardInclude .Interface = _DIRECT ∧
    checkType standardInclude (.Named ['m'] ['M'] (.Map .Interface .Interface)) = _NOT_TYPE ∧
    checkType standardInclude (.Slice .Interface) = _NOT_TYPE :=
  ⟨(checkType_direct_categories standardInclude
      (.Named ['m'] ['C'] (.Chan (.Basic ['i', 'n', 't'])))).1 _ rfl,
   (checkType_direct_categories standardInclude (.Named ['m'] ['F'] .Signature)).2.1 rfl,
   (checkType_direct_categories standardInclude .Interface).2.2.1 rfl,
   (checkType_direct_categories standardInclude
      (.Named ['m'] ['M'] (.Map .Interface .Interface))).2.2.2.1 _ _ rfl,
   (checkType_direct_categories standardInclude (.Slice .Interface)).2.2.2.2.1 _ rfl⟩

/-- Claim C8: under the configuration of `GetPtsToSets` (`Chan`, `Function` and
`Interface` set, every other flag unset) a type is targeted exactly when its
named-unwrapped form is a channel, function signature or interface, and is then
classified `_DIRECT`; every map, slice and pointer type, a pointer to a channel
included, is `_NOT_TYPE`. -/
theorem checkType_standardInclude (t : GoType) :
    (checkType standardInclude t ≠ _NOT_TYPE ↔
      ((∃ e, t.Underlying = .Chan e) ∨ t.Underlying = .Signature ∨ t.Underlying = .Interface)) ∧
    (checkType standardInclude t ≠ _NOT_TYPE → checkType standardInclude t = _DIRECT) ∧
    (((∃ k e, t.Underlying = .Map k e) ∨ (∃ e, t.Underlying = .Slice e) ∨
        (∃ e, t.Underlying = .Pointer e)) → checkType standardInclude t = _NOT_TYPE) ∧
    checkType standardInclude (.Pointer (.Chan t)) = _NOT_TYPE := by
  have hU := checkType_Underlying standardInclude t
  have hN := Underlying_ne_Named t
  refine ⟨?_, ?_, ?_, rfl⟩
  · rw [hU]
    cases h : t.Underlying <;> simp [checkType, standardInclude, _NOT_TYPE, _DIRECT]
    exact absurd h (hN _ _ _)
  · rw [hU]
    cases h : t.Underlying <;> simp [checkType, standardInclude, _NOT_TYPE, _DIRECT]
    exact absurd h (hN _ _ _)
  · rw [hU]
    rintro (⟨k, e, h⟩ | ⟨e, h⟩ | ⟨e, h⟩) <;> rw [h] <;>
      simp [checkType, standardInclude]

/-- Witness of C8: a named channel is targeted directly; a named pointer to a
channel is not targeted. -/
theorem checkType_standardInclude_witness :
    checkType standardInclude (.Named ['m'] ['C'] (.Chan .Interface)) = _DIRECT ∧
    checkType standardInclude (.Named ['m'] ['P'] (.Pointer (.Chan .Interface))) = _NOT_TYPE :=
  ⟨(checkType_standardInclude (.Named ['m'] ['C'] (.Chan .Interface))).2.1 (by decide),
   (checkType_standardInclude (.Named ['m'] ['P'] (.Pointer (.Chan .Interface)))).2.2.1
     (Or.inr (Or.inr ⟨_, rfl⟩))⟩

/-! ## Extended queries: `getExtendedQueries` -/

/-- The closure `collectLabels` only looks at the underlying type. -/
theorem collectLabels_Underlying : ∀ (t : GoType) (pre : List Char) (labels : List (List Char)),
    collectLabels t pre labels = collectLabels t.Underlying pre labels
  | .Named _ _ u, pre, labels => by
    simp only [collectLabels, GoType.Underlying]; exact collectLabels_Underlying u pre labels
  | .Basic _, _, _ => rfl
  | .Chan _, _, _ => rfl
  | .Signature, _, _ => rfl
  | .Interface, _, _ => rfl
  | .Map _ _, _, _ => rfl
  | .Slice _, _, _ => rfl
  | .Pointer _, _, _ => rfl
  | .Array _ _, _, _ => rfl
  | .Struct _, _, _ => rfl
  | .Tuple, _, _ => rfl

mutual
/-- The labels appended by `collectLabels` are the chains of `chanChains`, each
written after the current path. -/
theorem collectLabels_eq_chains : ∀ (t : GoType) (pre : List Char) (labels : List (List Char)),
    collectLabels t pre labels = labels ++ (chanChains t).map fun chain =>
      pre ++ (chain.map fun name => '.' :: name).flatten
  | .Named _ _ u, pre, labels => by
    simp only [collectLabels, chanChains]; exact collectLabels_eq_chains u pre labels
  | .Struct fs, pre, labels => by
    simp only [collectLabels, chanChains]; exact collectFields_eq_chains fs pre labels
  | .Chan _, pre, labels => by simp [collectLabels, chanChains]
  | .Basic _, _, _ => by simp [collectLabels, chanChains]
  | .Signature, _, _ => by simp [collectLabels, chanChains]
  | .Interface, _, _ => by simp [collectLabels, chanChains]
  | .Map _ _, _, _ => by simp [collectLabels, chanChains]
  | .Slice _, _, _ => by simp [collectLabels, chanChains]
  | .Pointer _, _, _ => by simp [collectLabels, chanChains]
  | .Array _ _, _, _ => by simp [collectLabels, chanChains]
  | .Tuple, _, _ => by simp [collectLabels, chanChains]
/-- The labels appended by the field loop are the chains of `fieldChains`. -/
theorem collectFields_eq_chains : ∀ (fs : FieldList) (pre : List Char)
    (labels : List (List Char)),
    collectFields fs pre labels = labels ++ (fieldChains fs).map fun chain =>
      pre ++ (chain.map fun name => '.' :: name).flatten
  | .nil, _, _ => by simp [collectFields, fieldChains]
  | .cons name ty rest, pre, labels => by
    simp only [collectFields, fieldChains]
    rw [collectLabels_eq_chains ty (pre ++ '.' :: name) labels,
      collectFields_eq_chains rest pre]
    simp [List.map_append, List.map_map, Function.comp_def]
end

/-- The chains of a type are those of its underlying type. -/
theorem chanChains_Underlying : ∀ t : GoType, chanChains t = chanChains t.Underlying
  | .Named _ _ u => by
    simp only [chanChains, GoType.Underlying]; exact chanChains_Underlying u
  | .Basic _ => rfl
  | .Chan _ => rfl
  | .Signature => rfl
  | .Interface => rfl
  | .Map _ _ => rfl
  | .Slice _ => rfl
  | .Pointer _ => rfl
  | .Array _ _ => rfl
  | .Struct _ => rfl
  | .Tuple => rfl

theorem ReachesChan.of_Named {pkg name : List Char} {u : GoType} {chain : List (List Char)}
    (h : ReachesChan u chain) : ReachesChan (.Named pkg name u) chain := by
  cases h with
  | chan hu => exact .chan (by simpa only [GoType.Underlying] using hu)
  | field hu hmem hr => exact .field (by simpa only [GoType.Underlying] using hu) hmem hr

mutual
/-- Every chain listed by `chanChains` leads to a channel. -/
theorem chanChains_sound : ∀ (t : GoType) (chain : List (List Char)),
    chain ∈ chanChains t → ReachesChan t chain
  | .Named _ _ u, chain, h => by
    simp only [chanChains] at h
    exact (chanChains_sound u chain h).of_Named
  | .Struct fs, chain, h => by
    simp only [chanChains] at h
    obtain ⟨name, ty, tl, rfl, hmem, hr⟩ := fieldChains_sound fs chain h
    exact .field rfl hmem hr
  | .Chan e, chain, h => by
    simp only [chanChains, List.mem_singleton] at h
    subst h
    exact .chan (e := e) rfl
  | .Basic _, _, h => by simp [chanChains] at h
  | .Signature, _, h => by simp [chanChains] at h
  | .Interface, _, h => by simp [chanChains] at h
  | .Map _ _, _, h => by simp [chanChains] at h
  | .Slice _, _, h => by simp [chanChains] at h
  | .Pointer _, _, h => by simp [chanChains] at h
  | .Array _ _, _, h => by simp [chanChains] at h
  | .Tuple, _, h => by simp [chanChains] at h
/-- Every chain listed by `fieldChains` starts with a field of the list and goes on
to a channel from the type of that field. -/
theorem fieldChains_sound : ∀ (fs : FieldList) (chain : List (List Char)),
    chain ∈ fieldChains fs →
    ∃ name ty tl, chain = name :: tl ∧ (name, ty) ∈ fs.toList ∧ ReachesChan ty tl
  | .nil, _, h => by simp [fieldChains] at h
  | .cons name ty rest, chain, h => by
    simp only [fieldChains, List.mem_append, List.mem_map] at h
    rcases h with ⟨tl, htl, rfl⟩ | h
    · exact ⟨name, ty, tl, rfl, List.mem_cons_self _ _, chanChains_sound ty tl htl⟩
    · obtain ⟨n, t, tl, rfl, hmem, hr⟩ := fieldChains_sound rest chain h
      exact ⟨n, t, tl, rfl, List.mem_cons_of_mem _ hmem, hr⟩
end

theorem mem_fieldChains : ∀ (fs : FieldList) (name : List Char) (ty : GoType)
    (tl : List (List Char)), (name, ty) ∈ fs.toList → tl ∈ chanChains ty →
    name :: tl ∈ fieldChains fs
  | .nil, _, _, _, h, _ => by simp [FieldList.toList] at h
  | .cons n t rest, name, ty, tl, h, htl => by
    simp only [FieldList.toList, List.mem_cons, Prod.mk.injEq] at h
    simp only [fieldChains, List.mem_append, List.mem_map]
    rcases h with ⟨rfl, rfl⟩ | h
    · exact Or.inl ⟨tl, htl, rfl⟩
    · exact Or.inr (mem_fieldChains rest name ty tl h htl)

/-- Every chain that leads to a channel is listed by `chanChains`. -/
theorem chanChains_complete {t : GoType} {chain : List (List Char)}
    (h : ReachesChan t chain) : chain ∈ chanChains t := by
  induction h with
  | chan hu => rw [chanChains_Underlying, hu]; simp [chanChains]
  | field hu hmem _ ih =>
    rw [chanChains_Underlying, hu]
    simp only [chanChains]
    exact mem_fieldChains _ _ _ _ hmem ih

/-- Claim C9: for a root value whose type is, after named unwrapping, a struct,
`getExtendedQueries` returns exactly one path per channel-typed field reachable
through a chain of nested struct-typed fields, the path being `x` followed by a dot
and the field name for every field on the chain, in depth-first field-declaration
order, with nothing left out and nothing added: the result is the rendering of the
list `fieldChains`, and the chains of that list are exactly the chains of field
names that lead from the root type to a channel. -/
theorem getExtendedQueries_struct (v : Value) (fs : FieldList)
    (h : v.type.Underlying = .Struct fs) :
    getExtendedQueries v = (fieldChains fs).map renderChain ∧
    ∀ chain, chain ∈ fieldChains fs ↔ ReachesChan v.type chain := by
  constructor
  · simp only [getExtendedQueries, h, collectLabels]
    rw [collectFields_eq_chains]
    simp [renderChain]
  · intro chain
    constructor
    · intro hc
      obtain ⟨name, ty, tl, rfl, hmem, hr⟩ := fieldChains_sound fs chain hc
      exact .field h hmem hr
    · intro hr
      have := chanChains_complete hr
      rw [chanChains_Underlying, h] at this
      simpa only [chanChains] using this

/-- Witness of C9: the type `Wrapper` of the test `chan--carries-embedded-struct`
(a struct embedding `Object`, which holds the channel `ch`), extended by a second,
direct channel field `done`. -/
theorem getExtendedQueries_struct_witness :
    exampleWrapper.Underlying = .Struct exampleWrapperFields ∧
    getExtendedQueries ⟨0, exampleWrapper, false, false⟩
      = [['x', '.', 'O', 'b', 'j', 'e', 'c', 't', '.', 'c', 'h'], ['x', '.', 'd', 'o', 'n', 'e']] :=
  ⟨rfl, (getExtendedQueries_struct ⟨0, exampleWrapper, false, false⟩ exampleWrapperFields rfl).1⟩

mutual
/-- The closure `collectLabels` adds nothing for a type without an open channel. -/
theorem collectLabels_noOpenChan : ∀ (t : GoType) (pre : List Char)
    (labels : List (List Char)), noOpenChan t = true → collectLabels t pre labels = labels
  | .Named _ _ u, pre, labels, h => by
    simp only [noOpenChan] at h
    simp only [collectLabels]; exact collectLabels_noOpenChan u pre labels h
  | .Struct fs, pre, labels, h => by
    simp only [noOpenChan] at h
    simp only [collectLabels]; exact collectFields_noOpenChan fs pre labels h
  | .Chan _, _, _, h => by simp [noOpenChan] at h
  | .Basic _, _, _, _ => rfl
  | .Signature, _, _, _ => rfl
  | .Interface, _, _, _ => rfl
  | .Map _ _, _, _, _ => rfl
  | .Slice _, _, _, _ => rfl
  | .Pointer _, _, _, _ => rfl
  | .Array _ _, _, _, _ => rfl
  | .Tuple, _, _, _ => rfl
/-- The field loop adds nothing when no field has an open channel. -/
theorem collectFields_noOpenChan : ∀ (fs : FieldList) (pre : List Char)
    (labels : List (List Char)), fieldsNoOpenChan fs = true → collectFields fs pre labels = labels
  | .nil, _, _, _ => rfl
  | .cons name ty rest, pre, labels, h => by
    simp only [fieldsNoOpenChan, Bool.and_eq_true] at h
    simp only [collectFields]
    rw [collectLabels_noOpenChan ty _ labels h.1, collectFields_noOpenChan rest pre labels h.2]
end

/-- A pointer, interface, array, slice or map type has no open channel, whatever
it points to or holds. -/
theorem isBoundary_noOpenChan : ∀ t : GoType, isBoundary t = true → noOpenChan t = true
  | .Named _ _ u, h => by
    simp only [isBoundary] at h
    simp only [noOpenChan]; exact isBoundary_noOpenChan u h
  | .Struct _, h => by simp [isBoundary] at h
  | .Chan _, h => by simp [isBoundary] at h
  | .Basic _, _ => rfl
  | .Signature, _ => rfl
  | .Interface, _ => rfl
  | .Map _ _, _ => rfl
  | .Slice _, _ => rfl
  | .Pointer _, _ => rfl
  | .Array _ _, _ => rfl
  | .Tuple, _ => rfl

/-- Claim C10: the descent of `getExtendedQueries` goes through struct-typed fields
only.  A field whose type is a pointer, interface, array, slice or map adds no
path, whatever lies behind it; so a root struct, or a root pointer to a struct,
whose channels all lie behind such fields yields the empty list. -/
theorem getExtendedQueries_boundary (v : Value) :
    (∀ (t : GoType) (pre : List Char) (labels : List (List Char)),
      isBoundary t = true → collectLabels t pre labels = labels) ∧
    (∀ name ty rest pre labels, isBoundary ty = true →
      collectFields (.cons name ty rest) pre labels = collectFields rest pre labels) ∧
    (∀ fs, v.type.Underlying = .Struct fs → fieldsNoOpenChan fs = true →
      getExtendedQueries v = []) ∧
    (∀ e fs, v.type.Underlying = .Pointer e → e.Underlying = .Struct fs →
      fieldsNoOpenChan fs = true → getExtendedQueries v = []) := by
  refine ⟨?_, ?_, ?_, ?_⟩
  · intro t pre labels h
    exact collectLabels_noOpenChan t pre labels (isBoundary_noOpenChan t h)
  · intro name ty rest pre labels h
    simp only [collectFields]
    rw [collectLabels_noOpenChan ty _ labels (isBoundary_noOpenChan ty h)]
  · intro fs h hb
    simp only [getExtendedQueries, h, collectLabels]
    exact collectFields_noOpenChan fs _ _ hb
  · intro e fs h he hb
    simp only [getExtendedQueries, h]
    rw [collectLabels_Underlying, he]
    simp only [collectLabels]
    exact collectFields_noOpenChan fs _ _ hb

/-- Witness of C10: the struct `exampleGuarded`, as a root and behind a root
pointer, and a pointer-to-channel field in front of a channel field. -/
theorem getExtendedQueries_boundary_witness :
    getExtendedQueries ⟨0, exampleGuarded, false, false⟩ = [] ∧
    getExtendedQueries ⟨1, .Pointer exampleGuarded, true, true⟩ = [] ∧
    collectLabels (.Pointer (.Chan intType)) ['x', '.', 'p'] [] = [] ∧
    collectFields (.cons ['p'] (.Pointer (.Chan intType)) (.cons ['c'] (.Chan intType) .nil))
      ['x'] [] = collectFields (.cons ['c'] (.Chan intType) .nil) ['x'] [] :=
  ⟨(getExtendedQueries_boundary ⟨0, exampleGuarded, false, false⟩).2.2.1 exampleGuardedFields rfl rfl,
   (getExtendedQueries_boundary ⟨1, .Pointer exampleGuarded, true, true⟩).2.2.2 exampleGuarded
     exampleGuardedFields rfl rfl rfl,
   (getExtendedQueries_boundary ⟨0, exampleGuarded, false, false⟩).1 _ _ _ rfl,
   (getExtendedQueries_boundary ⟨0, exampleGuarded, false, false⟩).2.1 _ _ _ _ _ rfl⟩

/-! ## Query collection: the collector as a run over events -/

/-- A loop whose body is itself a loop over a list of events runs over the
concatenation of these lists. -/
theorem foldlM_flatMap_option {α β γ : Type} (f : β → α → Option β) (g : α → List γ)
    (h : β → γ → Option β) (hf : ∀ b a, f b a = (g a).foldlM h b) :
    ∀ (l : List α) (b : β), l.foldlM f b = (l.flatMap g).foldlM h b := by
  intro l
  induction l with
  | nil => intro b; rfl
  | cons a l ih =>
    intro b
    rw [List.foldlM_cons, List.flatMap_cons, List.foldlM_append, hf]
    cases (g a).foldlM h b with
    | none => rfl
    | some b1 => exact ih b1

theorem foldlM_maybeAdd_eq {P R : Type} (env : Env P R) (inc : IncludeType) :
    ∀ (vs : List Value) (st : Config P × PointerResult P R),
    vs.foldlM (maybeAdd env inc) st = (vs.map Event.visit).foldlM (stepEvent env inc) st := by
  intro vs
  induction vs with
  | nil => intro st; rfl
  | cons v vs ih =>
    intro st
    rw [List.foldlM_cons, List.map_cons, List.foldlM_cons]
    show (maybeAdd env inc st v >>= _) = (maybeAdd env inc st v >>= _)
    cases maybeAdd env inc st v with
    | none => rfl
    | some st1 => exact ih st1

theorem visitInstr_eq {P R : Type} (env : Env P R) (inc : IncludeType)
    (st : Config P × PointerResult P R) (i : Instr) :
    visitInstr env inc st i = (instrEvents i).foldlM (stepEvent env inc) st := by
  cases i with
  | Call callee v =>
    simp only [visitInstr, instrEvents, List.foldlM_cons, List.foldlM_nil, stepEvent]
    cases maybeAdd env inc st callee with
    | none => rfl
    | some st1 =>
      show maybeAdd env inc st1 v = (maybeAdd env inc st1 v >>= pure)
      cases maybeAdd env inc st1 v <;> rfl
  | Range id => rfl
  | Val v =>
    simp only [visitInstr, instrEvents, List.foldlM_cons, List.foldlM_nil, stepEvent]
    cases maybeAdd env inc st v <;> rfl
  | Send ch X =>
    simp only [visitInstr, instrEvents, List.foldlM_cons, List.foldlM_nil, stepEvent]
    cases sendQueries env X (getExtendedQueries X) st <;> rfl
  | Other => rfl

theorem visitFunction_eq {P R : Type} (env : Env P R) (inc : IncludeType)
    (st : Config P × PointerResult P R) (fn : SSAFunction) :
    visitFunction env inc st fn = (functionEvents fn).foldlM (stepEvent env inc) st := by
  simp only [visitFunction, functionEvents, List.foldlM_append, foldlM_maybeAdd_eq]
  cases h1 : (fn.Params.map Event.visit).foldlM (stepEvent env inc) st with
  | none => rfl
  | some st1 =>
    simp only [Option.bind_eq_bind, Option.some_bind]
    cases h2 : (fn.FreeVars.map Event.visit).foldlM (stepEvent env inc) st1 with
    | none => rfl
    | some st2 =>
      simp only [Option.some_bind]
      exact foldlM_flatMap_option _ _ _
        (fun b block => foldlM_flatMap_option _ _ _ (fun b i => visitInstr_eq env inc b i) block b)
        fn.Blocks st2

/-- The collector is the run of `stepEvent` over the events of the program. -/
theorem collectPtsToQueries_eq_events {P R : Type} (env : Env P R) (prog : Program)
    (config : Config P) (inc : IncludeType) :
    collectPtsToQueries env prog config inc =
      (programEvents prog).foldlM (stepEvent env inc)
        (config, { Result := none, CondQueries := fun _ => none,
                   PayloadQueries := fun _ => none }) := by
  simp only [collectPtsToQueries, programEvents]
  exact foldlM_flatMap_option _ _ _ (fun b fn => visitFunction_eq env inc b fn) prog _

theorem extendConfig_nil {P : Type} (c : Config P) : extendConfig c [] [] [] = c := by
  cases c; simp [extendConfig]

theorem answers_append {P R : Type} (env : Env P R) :
    ∀ (l1 l2 : List Request) (k : Nat),
    answers env k (l1 ++ l2) =
      match answers env k l1 with
      | none => none
      | some a1 =>
        match answers env (k + l1.length) l2 with
        | none => none
        | some a2 => some (a1 ++ a2) := by
  intro l1
  induction l1 with
  | nil =>
    intro l2 k
    simp only [List.nil_append, answers, List.length_nil, Nat.add_zero]
    cases answers env k l2 <;> rfl
  | cons r rs ih =>
    intro l2 k
    have hk : k + (rs.length + 1) = k + 1 + rs.length := by omega
    rw [List.cons_append]
    simp only [answers, List.length_cons]
    cases h1 : env.AddExtendedQuery k r.v r.path with
    | none => rfl
    | some ptr =>
      simp only []
      rw [ih l2 (k + 1), hk]
      cases h2 : answers env (k + 1) rs with
      | none => rfl
      | some a1 =>
        simp only []
        cases h3 : answers env (k + 1 + rs.length) l2 with
        | none => rfl
        | some a2 => rfl

theorem answers_length {P R : Type} (env : Env P R) :
    ∀ (l : List Request) (k : Nat) (ans : List (Request × P)),
    answers env k l = some ans → ans.length = l.length ∧ ans.map Prod.fst = l := by
  intro l
  induction l with
  | nil => intro k ans h; simp only [answers, Option.some.injEq] at h; subst h; simp
  | cons r rs ih =>
    intro k ans h
    simp only [answers] at h
    cases h1 : env.AddExtendedQuery k r.v r.path with
    | none => rw [h1] at h; exact absurd h (by simp)
    | some ptr =>
      rw [h1] at h
      cases h2 : answers env (k + 1) rs with
      | none => rw [h2] at h; exact absurd h (by simp)
      | some rest =>
        rw [h2] at h
        simp only [Option.some.injEq] at h
        subst h
        obtain ⟨hl, hm⟩ := ih (k + 1) rest h2
        simp [hl, hm]

/-- The closure `maybeAdd` in terms of the registrations of the visit. -/
theorem maybeAdd_eq {P R : Type} (env : Env P R) (inc : IncludeType) (c : Config P)
    (r : PointerResult P R) (v : Value) :
    maybeAdd env inc (c, r) v =
      match answers env c.extendedQueries.length (eventRequests env inc (.visit v)) with
      | none => none
      | some ans =>
        some (extendConfig c (eventDirect inc (.visit v)) (eventIndirect inc (.visit v)) ans,
          ans.foldl applyAnswer r) := by
  obtain ⟨M, B, Q, I, E⟩ := c
  by_cases ht : checkType inc v.type = _NOT_TYPE
  · have hd : includesDirect inc v = false := by
      simp only [includesDirect, ht]; decide
    have hi : includesIndirect inc v = false := by
      simp only [includesIndirect, ht]; decide
    simp [maybeAdd, ht, eventRequests, condApplies, hd, hi, eventDirect, eventIndirect, answers,
      extendConfig]
  · by_cases hd2 : checkType inc v.type &&& _DIRECT = 0 <;>
    by_cases hi2 : checkType inc v.type &&& _INDIRECT = 0 <;>
    cases hU : v.type.Underlying <;>
    cases hs : env.SkipSync <;>
    cases ha : v.isAlloc <;>
    simp [maybeAdd, eventRequests, condApplies, eventDirect, eventIndirect, isCondPointer,
      includesDirect, includesIndirect, Config.AddQuery, Config.AddIndirectQuery,
      Config.AddExtendedQuery, extendConfig, answers, ht, hd2, hi2, hU, hs, ha]
    all_goals
      rename_i elem
      cases hn : env.IsNamedTypeStrict elem syncName condName <;>
      cases hq : env.AddExtendedQuery E.length v lockerPath <;>
      simp [answers, hn, hq, applyAnswer]

theorem extendConfig_extendConfig {P : Type} (c : Config P) (d1 i1 d2 i2 : List Value)
    (a1 a2 : List (Request × P)) :
    extendConfig (extendConfig c d1 i1 a1) d2 i2 a2 =
      extendConfig c (d1 ++ d2) (i1 ++ i2) (a1 ++ a2) := by
  simp [extendConfig]

theorem extendConfig_length {P : Type} (c : Config P) (d i : List Value)
    (a : List (Request × P)) :
    (extendConfig c d i a).extendedQueries.length = c.extendedQueries.length + a.length := by
  simp [extendConfig]

/-- The loop of the send case in terms of its registrations. -/
theorem sendQueries_eq {P R : Type} (env : Env P R) (X : Value) :
    ∀ (qs : List (List Char)) (c : Config P) (r : PointerResult P R),
    sendQueries env X qs (c, r) =
      match answers env c.extendedQueries.length (qs.map fun q => ⟨.payload, X, q⟩) with
      | none => none
      | some ans => some (extendConfig c [] [] ans, ans.foldl applyAnswer r) := by
  intro qs
  induction qs with
  | nil => intro c r; simp [sendQueries, answers, extendConfig_nil]
  | cons q rest ih =>
    intro c r
    simp only [sendQueries, Config.AddExtendedQuery, List.map_cons, answers]
    cases hq : env.AddExtendedQuery c.extendedQueries.length X q with
    | none => rfl
    | some ptr =>
      simp only []
      rw [ih]
      simp only [List.length_append, List.length_singleton]
      cases ha : answers env (c.extendedQueries.length + 1)
          (rest.map fun q => (⟨.payload, X, q⟩ : Request)) with
      | none => rfl
      | some ans =>
        simp only [List.foldl_cons, applyAnswer]
        congr 2
        simp [extendConfig]

/-- The step on one event in terms of its registrations. -/
theorem stepEvent_eq {P R : Type} (env : Env P R) (inc : IncludeType) (c : Config P)
    (r : PointerResult P R) (e : Event) :
    stepEvent env inc (c, r) e =
      match answers env c.extendedQueries.length (eventRequests env inc e) with
      | none => none
      | some ans =>
        some (extendConfig c (eventDirect inc e) (eventIndirect inc e) ans,
          ans.foldl applyAnswer r) := by
  cases e with
  | visit v => exact maybeAdd_eq env inc c r v
  | send X => exact sendQueries_eq env X (getExtendedQueries X) c r

/-- A run over events in terms of the registrations of the events: the run ends
normally exactly when every registration is answered, and then the configuration
has gained the direct queries, the indirect queries and the answered registrations,
and the result maps have gained the answers. -/
theorem events_run {P R : Type} (env : Env P R) (inc : IncludeType) :
    ∀ (es : List Event) (c : Config P) (r : PointerResult P R),
    es.foldlM (stepEvent env inc) (c, r) =
      match answers env c.extendedQueries.length (es.flatMap (eventRequests env inc)) with
      | none => none
      | some ans =>
        some (extendConfig c (es.flatMap (eventDirect inc)) (es.flatMap (eventIndirect inc)) ans,
          ans.foldl applyAnswer r) := by
  intro es
  induction es with
  | nil => intro c r; simp [answers, extendConfig_nil]
  | cons e es ih =>
    intro c r
    rw [List.foldlM_cons, stepEvent_eq]
    simp only [List.flatMap_cons]
    rw [answers_append]
    cases h1 : answers env c.extendedQueries.length (eventRequests env inc e) with
    | none => rfl
    | some a1 =>
      simp only [Option.bind_eq_bind, Option.some_bind]
      rw [ih, extendConfig_length, (answers_length env _ _ _ h1).1]
      cases h2 : answers env (c.extendedQueries.length + (eventRequests env inc e).length)
          (es.flatMap (eventRequests env inc)) with
      | none => rfl
      | some a2 =>
        simp only [extendConfig_extendConfig, List.foldl_append]

/-- Summary of a normal run of the collector: every registration of the program is
answered, the configuration has gained the direct and indirect queries of the events
and the answered registrations, and the result maps are built from the answers. -/
theorem collectPtsToQueries_some {P R : Type} (env : Env P R) (prog : Program)
    (c c1 : Config P) (inc : IncludeType) (res : PointerResult P R)
    (h : collectPtsToQueries env prog c inc = some (c1, res)) :
    ∃ ans, answers env c.extendedQueries.length (requests env inc prog) = some ans ∧
      c1 = extendConfig c ((programEvents prog).flatMap (eventDirect inc))
        ((programEvents prog).flatMap (eventIndirect inc)) ans ∧
      res = ans.foldl applyAnswer
        { Result := none, CondQueries := fun _ => none, PayloadQueries := fun _ => none } := by
  rw [collectPtsToQueries_eq_events, events_run] at h
  cases ha : answers env c.extendedQueries.length
      ((programEvents prog).flatMap (eventRequests env inc)) with
  | none => rw [ha] at h; exact absurd h (by simp)
  | some ans =>
    rw [ha] at h
    simp only [Option.some.injEq, Prod.mk.injEq] at h
    exact ⟨ans, ha, h.1.symm, h.2.symm⟩

/-- The collector ends normally exactly when every registration is answered. -/
theorem collectPtsToQueries_isSome {P R : Type} (env : Env P R) (prog : Program)
    (c : Config P) (inc : IncludeType) :
    (∃ st, collectPtsToQueries env prog c inc = some st) ↔
      ∃ ans, answers env c.extendedQueries.length (requests env inc prog) = some ans := by
  rw [collectPtsToQueries_eq_events, events_run]
  show _ ↔ ∃ ans, answers env c.extendedQueries.length
    ((programEvents prog).flatMap (eventRequests env inc)) = some ans
  cases answers env c.extendedQueries.length
      ((programEvents prog).flatMap (eventRequests env inc)) with
  | none => simp
  | some ans => simp

theorem mem_flatMap_eventDirect (inc : IncludeType) (es : List Event) (v : Value) :
    v ∈ es.flatMap (eventDirect inc) ↔ Event.visit v ∈ es ∧ includesDirect inc v = true := by
  simp only [List.mem_flatMap]
  constructor
  · rintro ⟨e, he, hv⟩
    cases e with
    | visit u =>
      simp only [eventDirect] at hv
      split at hv
      · rename_i hd
        simp only [List.mem_singleton] at hv
        subst hv
        exact ⟨he, hd⟩
      · simp at hv
    | send X => simp [eventDirect] at hv
  · rintro ⟨he, hd⟩
    exact ⟨.visit v, he, by simp [eventDirect, hd]⟩

theorem mem_flatMap_eventIndirect (inc : IncludeType) (es : List Event) (v : Value) :
    v ∈ es.flatMap (eventIndirect inc) ↔ Event.visit v ∈ es ∧ includesIndirect inc v = true := by
  simp only [List.mem_flatMap]
  constructor
  · rintro ⟨e, he, hv⟩
    cases e with
    | visit u =>
      simp only [eventIndirect] at hv
      split at hv
      · rename_i hd
        simp only [List.mem_singleton] at hv
        subst hv
        exact ⟨he, hd⟩
      · simp at hv
    | send X => simp [eventIndirect] at hv
  · rintro ⟨he, hd⟩
    exact ⟨.visit v, he, by simp [eventIndirect, hd]⟩

theorem mem_visited (prog : Program) (v : Value) :
    v ∈ visited prog ↔ Event.visit v ∈ programEvents prog := by
  simp only [visited, List.mem_filterMap]
  constructor
  · rintro ⟨e, he, hv⟩
    cases e with
    | visit u => simp only [Option.some.injEq] at hv; subst hv; exact he
    | send X => simp at hv
  · intro he
    exact ⟨.visit v, he, rfl⟩

theorem mem_sentOperands (prog : Program) (X : Value) :
    X ∈ sentOperands prog ↔ Event.send X ∈ programEvents prog := by
  simp only [sentOperands, List.mem_filterMap]
  constructor
  · rintro ⟨e, he, hv⟩
    cases e with
    | visit u => simp at hv
    | send Y => simp only [Option.some.injEq] at hv; subst hv; exact he
  · intro he
    exact ⟨.send X, he, rfl⟩

/-- A value of the program is visited, or is the value of a `Range` instruction. -/
theorem programValues_visited (prog : Program) (v : Value) (hv : v ∈ programValues prog) :
    v ∈ visited prog ∨ v.type = rangeIterType := by
  simp only [programValues, List.mem_flatMap, List.mem_append, List.mem_filterMap] at hv
  obtain ⟨fn, hfn, hv⟩ := hv
  rw [mem_visited]
  simp only [programEvents, functionEvents, List.mem_flatMap, List.mem_append, List.mem_map]
  rcases hv with hp | hf | ⟨block, hb, i, hi, hval⟩
  · exact Or.inl ⟨fn, hfn, Or.inl ⟨v, hp, rfl⟩⟩
  · exact Or.inl ⟨fn, hfn, Or.inr (Or.inl ⟨v, hf, rfl⟩)⟩
  · cases i with
    | Call callee u =>
      simp only [Instr.value, Option.some.injEq] at hval
      subst hval
      exact Or.inl ⟨fn, hfn, Or.inr (Or.inr ⟨block, hb, _, hi, by simp [instrEvents]⟩)⟩
    | Range id =>
      simp only [Instr.value, Option.some.injEq] at hval
      subst hval
      exact Or.inr rfl
    | Val u =>
      simp only [Instr.value, Option.some.injEq] at hval
      subst hval
      exact Or.inl ⟨fn, hfn, Or.inr (Or.inr ⟨block, hb, _, hi, by simp [instrEvents]⟩)⟩
    | Send ch X => simp [Instr.value] at hval
    | Other => simp [Instr.value] at hval

theorem includes_rangeIterType (inc : IncludeType) (v : Value) (h : v.type = rangeIterType) :
    includesDirect inc v = false ∧ includesIndirect inc v = false := by
  simp only [includesDirect, includesIndirect, h, rangeIterType, checkType]
  decide

/-! ## Query collection: direct and indirect queries -/

/-- Claim C11: in a run of `collectPtsToQueries` that ends normally the configuration
gains direct and indirect queries on visited values only, and for every value of the
program (a parameter, a captured free variable, a value-producing instruction, a
callee) a direct query is registered exactly when its classification includes
`_DIRECT` and an indirect query exactly when it includes `_INDIRECT`; a value
classified `_NOT_TYPE` gets neither. -/
theorem collectPtsToQueries_queries {P R : Type} (env : Env P R) (prog : Program)
    (c c1 : Config P) (inc : IncludeType) (res : PointerResult P R)
    (h : collectPtsToQueries env prog c inc = some (c1, res)) :
    ∃ added addedIndirect,
      c1.Queries = c.Queries ++ added ∧ c1.IndirectQueries = c.IndirectQueries ++ addedIndirect ∧
      (∀ v ∈ added, v ∈ visited prog) ∧ (∀ v ∈ addedIndirect, v ∈ visited prog) ∧
      ∀ v, v ∈ visited prog ∨ v ∈ programValues prog →
        (v ∈ added ↔ checkType inc v.type &&& _DIRECT ≠ 0) ∧
        (v ∈ addedIndirect ↔ checkType inc v.type &&& _INDIRECT ≠ 0) ∧
        (checkType inc v.type = _NOT_TYPE → v ∉ added ∧ v ∉ addedIndirect) := by
  obtain ⟨ans, -, hc1, -⟩ := collectPtsToQueries_some env prog c c1 inc res h
  refine ⟨(programEvents prog).flatMap (eventDirect inc),
    (programEvents prog).flatMap (eventIndirect inc), by rw [hc1]; rfl, by rw [hc1]; rfl,
    ?_, ?_, ?_⟩
  · intro v hv
    exact (mem_visited prog v).mpr ((mem_flatMap_eventDirect inc _ v).mp hv).1
  · intro v hv
    exact (mem_visited prog v).mpr ((mem_flatMap_eventIndirect inc _ v).mp hv).1
  · intro v hv
    have hd : checkType inc v.type &&& _DIRECT ≠ 0 ↔ includesDirect inc v = true := by
      simp [includesDirect]
    have hi : checkType inc v.type &&& _INDIRECT ≠ 0 ↔ includesIndirect inc v = true := by
      simp [includesIndirect]
    have hvis : v ∈ visited prog ∨ v.type = rangeIterType := by
      rcases hv with hv | hv
      · exact Or.inl hv
      · exact programValues_visited prog v hv
    rw [mem_flatMap_eventDirect, mem_flatMap_eventIndirect, hd, hi, ← mem_visited]
    have h1 : (v ∈ visited prog ∧ includesDirect inc v = true) ↔ includesDirect inc v = true := by
      constructor
      · exact fun h => h.2
      · intro h
        rcases hvis with hvis | hvis
        · exact ⟨hvis, h⟩
        · rw [(includes_rangeIterType inc v hvis).1] at h; exact absurd h (by simp)
    have h2 : (v ∈ visited prog ∧ includesIndirect inc v = true) ↔
        includesIndirect inc v = true := by
      constructor
      · exact fun h => h.2
      · intro h
        rcases hvis with hvis | hvis
        · exact ⟨hvis, h⟩
        · rw [(includes_rangeIterType inc v hvis).2] at h; exact absurd h (by simp)
    refine ⟨h1, h2, ?_⟩
    intro hnt
    have e1 : includesDirect inc v = false := by simp only [includesDirect, hnt]; decide
    have e2 : includesIndirect inc v = false := by simp only [includesIndirect, hnt]; decide
    rw [h1, h2, e1, e2]
    simp

/-- Witness of C11: the run on `exampleProgram` under the configuration of
`GetPtsToSets`. -/
theorem collectPtsToQueries_queries_witness :
    ∃ c1 res, collectPtsToQueries (exampleEnv false) exampleProgram (freshConfig Nat [0])
        standardInclude = some (c1, res) ∧
      c1.Queries = [exampleChan, exampleCallee] ∧ c1.IndirectQueries = [] ∧
      ∃ added addedIndirect,
        c1.Queries = [] ++ added ∧ c1.IndirectQueries = [] ++ addedIndirect ∧
        (∀ v ∈ added, v ∈ visited exampleProgram) ∧
        (∀ v ∈ addedIndirect, v ∈ visited exampleProgram) ∧
        ∀ v, v ∈ visited exampleProgram ∨ v ∈ programValues exampleProgram →
          (v ∈ added ↔ checkType standardInclude v.type &&& _DIRECT ≠ 0) ∧
          (v ∈ addedIndirect ↔ checkType standardInclude v.type &&& _INDIRECT ≠ 0) ∧
          (checkType standardInclude v.type = _NOT_TYPE → v ∉ added ∧ v ∉ addedIndirect) :=
  ⟨_, _, rfl, rfl, rfl,
    collectPtsToQueries_queries (exampleEnv false) exampleProgram (freshConfig Nat [0]) _
      standardInclude _ rfl⟩

/-! ## Query collection: the result maps -/

/-- Each answer carries the pointer the solver handed out for its registration. -/
theorem answers_getElem {P R : Type} (env : Env P R) :
    ∀ (l : List Request) (k : Nat) (ans : List (Request × P)), answers env k l = some ans →
    ∀ (i : Nat) (a : Request × P), ans[i]? = some a →
      l[i]? = some a.1 ∧ env.AddExtendedQuery (k + i) a.1.v a.1.path = some a.2 := by
  intro l
  induction l with
  | nil =>
    intro k ans h i a ha
    simp only [answers, Option.some.injEq] at h
    subst h
    simp at ha
  | cons r rs ih =>
    intro k ans h i a ha
    simp only [answers] at h
    cases h1 : env.AddExtendedQuery k r.v r.path with
    | none => rw [h1] at h; exact absurd h (by simp)
    | some ptr =>
      rw [h1] at h
      cases h2 : answers env (k + 1) rs with
      | none => rw [h2] at h; exact absurd h (by simp)
      | some rest =>
        rw [h2] at h
        simp only [Option.some.injEq] at h
        subst h
        cases i with
        | zero =>
          simp only [List.getElem?_cons_zero, Option.some.injEq] at ha
          subst ha
          exact ⟨by simp, by simpa using h1⟩
        | succ j =>
          simp only [List.getElem?_cons_succ] at ha
          obtain ⟨e1, e2⟩ := ih (k + 1) rest h2 j a ha
          refine ⟨by simpa using e1, ?_⟩
          have : k + (j + 1) = k + 1 + j := by omega
          rw [this]; exact e2

theorem pointersFor_cons_eq {P : Type} (kind : ReqKind) (X : Value) (a : Request × P)
    (ans : List (Request × P)) (h : a.1.kind = kind ∧ a.1.v = X) :
    pointersFor kind X (a :: ans) = a.2 :: pointersFor kind X ans := by
  simp only [pointersFor, List.filterMap_cons, if_pos h]

theorem pointersFor_cons_ne {P : Type} (kind : ReqKind) (X : Value) (a : Request × P)
    (ans : List (Request × P)) (h : ¬(a.1.kind = kind ∧ a.1.v = X)) :
    pointersFor kind X (a :: ans) = pointersFor kind X ans := by
  simp only [pointersFor, List.filterMap_cons, if_neg h]

/-- The map `PayloadQueries` after a list of answers. -/
theorem foldl_applyAnswer_PayloadQueries {P R : Type} (X : Value) :
    ∀ (ans : List (Request × P)) (r : PointerResult P R),
    (ans.foldl applyAnswer r).PayloadQueries X =
      if (pointersFor .payload X ans).isEmpty then r.PayloadQueries X
      else some ((r.PayloadQueries X).getD [] ++ pointersFor .payload X ans) := by
  intro ans
  induction ans with
  | nil => intro r; simp [pointersFor]
  | cons a ans ih =>
    intro r
    rw [List.foldl_cons, ih]
    by_cases h : a.1.kind = ReqKind.payload ∧ a.1.v = X
    · rw [pointersFor_cons_eq _ _ _ _ h]
      obtain ⟨hk, hv⟩ := h
      subst hv
      cases hl : pointersFor ReqKind.payload a.1.v ans with
      | nil => simp [applyAnswer, mapSet, hk]
      | cons q qs => simp [applyAnswer, mapSet, hk]
    · rw [pointersFor_cons_ne _ _ _ _ h]
      have hsame : (applyAnswer r a).PayloadQueries X = r.PayloadQueries X := by
        simp only [applyAnswer]
        cases hk : a.1.kind with
        | cond => rfl
        | payload =>
          have hv : ¬ X = a.1.v := fun e => h ⟨hk, e.symm⟩
          simp [mapSet, hv]
      rw [hsame]

/-- The map `CondQueries` after a list of answers: the last pointer handed out for
a registration of the locker path on the value. -/
theorem foldl_applyAnswer_CondQueries {P R : Type} (v : Value) :
    ∀ (ans : List (Request × P)) (r : PointerResult P R),
    (ans.foldl applyAnswer r).CondQueries v =
      match (pointersFor .cond v ans).getLast? with
      | none => r.CondQueries v
      | some p => some p := by
  intro ans
  induction ans with
  | nil => intro r; simp [pointersFor]
  | cons a ans ih =>
    intro r
    rw [List.foldl_cons, ih]
    by_cases h : a.1.kind = ReqKind.cond ∧ a.1.v = v
    · rw [pointersFor_cons_eq _ _ _ _ h]
      obtain ⟨hk, hv⟩ := h
      subst hv
      cases hl : pointersFor ReqKind.cond a.1.v ans with
      | nil => simp [applyAnswer, mapSet, hk]
      | cons p ps =>
        cases hg : (p :: ps).getLast? with
        | none => exact absurd (List.getLast?_eq_none_iff.mp hg) (by simp)
        | some q => simp [List.getLast?_cons_cons, hg]
    · rw [pointersFor_cons_ne _ _ _ _ h]
      have hsame : (applyAnswer r a).CondQueries v = r.CondQueries v := by
        simp only [applyAnswer]
        cases hk : a.1.kind with
        | payload => rfl
        | cond =>
          have hv : ¬ v = a.1.v := fun e => h ⟨hk, e.symm⟩
          simp [mapSet, hv]
      rw [hsame]

theorem pointersFor_isEmpty {P : Type} (kind : ReqKind) (X : Value) :
    ∀ (ans : List (Request × P)),
    (pointersFor kind X ans).isEmpty = true ↔
      ∀ r ∈ ans.map Prod.fst, ¬(r.kind = kind ∧ r.v = X) := by
  intro ans
  induction ans with
  | nil => simp [pointersFor]
  | cons a ans ih =>
    by_cases h : a.1.kind = kind ∧ a.1.v = X
    · rw [pointersFor_cons_eq _ _ _ _ h]
      simp only [List.isEmpty_cons, Bool.false_eq_true, List.map_cons, List.mem_cons,
        forall_eq_or_imp, false_iff]
      exact fun hc => hc.1 h
    · rw [pointersFor_cons_ne _ _ _ _ h, ih]
      simp only [List.map_cons, List.mem_cons, forall_eq_or_imp]
      exact ⟨fun h2 => ⟨h, h2⟩, fun h2 => h2.2⟩

/-- The registrations of payload queries on `X` come from the sends of `X` and the
paths of `getExtendedQueries`. -/
theorem mem_requests_payload {P R : Type} (env : Env P R) (inc : IncludeType) (prog : Program)
    (r : Request) (hk : r.kind = .payload) :
    r ∈ requests env inc prog ↔
      r.v ∈ sentOperands prog ∧ r.path ∈ getExtendedQueries r.v := by
  simp only [requests, List.mem_flatMap, mem_sentOperands]
  constructor
  · rintro ⟨e, he, hr⟩
    cases e with
    | visit v =>
      simp only [eventRequests] at hr
      split at hr
      · simp only [List.mem_singleton] at hr
        rw [hr] at hk
        exact absurd hk (by simp)
      · simp at hr
    | send X =>
      simp only [eventRequests, List.mem_map] at hr
      obtain ⟨q, hq, rfl⟩ := hr
      exact ⟨he, hq⟩
  · rintro ⟨he, hq⟩
    refine ⟨.send r.v, he, ?_⟩
    simp only [eventRequests, List.mem_map]
    refine ⟨r.path, hq, ?_⟩
    obtain ⟨kind, v, path⟩ := r
    simp only at hk
    subst hk
    rfl

/-- The registrations of the locker path come from the visits of the values that
`condApplies` selects. -/
theorem mem_requests_cond {P R : Type} (env : Env P R) (inc : IncludeType) (prog : Program)
    (r : Request) (hk : r.kind = .cond) :
    r ∈ requests env inc prog ↔
      r.v ∈ visited prog ∧ condApplies env inc r.v = true ∧ r.path = lockerPath := by
  simp only [requests, List.mem_flatMap, mem_visited]
  constructor
  · rintro ⟨e, he, hr⟩
    cases e with
    | visit v =>
      simp only [eventRequests] at hr
      split at hr
      · rename_i hc
        simp only [List.mem_singleton] at hr
        subst hr
        exact ⟨he, hc, rfl⟩
      · simp at hr
    | send X =>
      simp only [eventRequests, List.mem_map] at hr
      obtain ⟨q, -, rfl⟩ := hr
      exact absurd hk (by simp)
  · rintro ⟨he, hc, hp⟩
    refine ⟨.visit r.v, he, ?_⟩
    simp only [eventRequests, hc, if_true, List.mem_singleton]
    obtain ⟨kind, v, path⟩ := r
    simp only at hk hp
    subst hk hp
    rfl

/-- The registrations of payload queries on `X`, in order: for every send of `X`,
the paths of `getExtendedQueries X`. -/
theorem requests_filter_payload {P R : Type} (env : Env P R) (inc : IncludeType) (X : Value) :
    ∀ es : List Event,
    (es.flatMap (eventRequests env inc)).filter (fun r => decide (r.kind = .payload ∧ r.v = X)) =
      ((es.filterMap fun
          | .visit _ => none
          | .send Y => some Y).filter fun Y => decide (Y = X)).flatMap fun _ =>
        (getExtendedQueries X).map fun q => ⟨.payload, X, q⟩ := by
  intro es
  induction es with
  | nil => rfl
  | cons e es ih =>
    rw [List.flatMap_cons, List.filter_append, ih]
    cases e with
    | visit v =>
      have : (eventRequests env inc (.visit v)).filter
          (fun r => decide (r.kind = .payload ∧ r.v = X)) = [] := by
        simp only [eventRequests]
        split <;> simp
      rw [this]
      simp
    | send Y =>
      by_cases hY : Y = X
      · subst hY
        have : (eventRequests env inc (.send Y)).filter
            (fun r => decide (r.kind = .payload ∧ r.v = Y)) =
            (getExtendedQueries Y).map fun q => ⟨.payload, Y, q⟩ := by
          simp only [eventRequests]
          rw [List.filter_eq_self]
          intro r hr
          obtain ⟨q, -, rfl⟩ := List.mem_map.mp hr
          simp
        rw [this]
        simp
      · have : (eventRequests env inc (.send Y)).filter
            (fun r => decide (r.kind = .payload ∧ r.v = X)) = [] := by
          simp only [eventRequests]
          rw [List.filter_eq_nil_iff]
          intro r hr
          obtain ⟨q, -, rfl⟩ := List.mem_map.mp hr
          simp [hY]
        rw [this]
        simp [hY]

/-- Claim C12: after a run of `collectPtsToQueries` that ends normally, for every
value `X` the list `PayloadQueries[X]` consists of exactly the pointers handed out
for the registrations of extended queries on `X` made, for each send instruction
whose sent operand is `X`, for each path of `getExtendedQueries(X)` in order; `X`
has no entry exactly when no send instruction sends `X` or `getExtendedQueries(X)`
is empty. -/
theorem collectPtsToQueries_PayloadQueries {P R : Type} (env : Env P R) (prog : Program)
    (c c1 : Config P) (inc : IncludeType) (res : PointerResult P R)
    (h : collectPtsToQueries env prog c inc = some (c1, res)) :
    ∃ ans, answers env c.extendedQueries.length (requests env inc prog) = some ans ∧
      ans.map Prod.fst = requests env inc prog ∧
      (∀ (i : Nat) (a : Request × P), ans[i]? = some a →
        env.AddExtendedQuery (c.extendedQueries.length + i) a.1.v a.1.path = some a.2) ∧
      ∀ X : Value,
        (requests env inc prog).filter (fun r => decide (r.kind = .payload ∧ r.v = X)) =
          ((sentOperands prog).filter fun Y => decide (Y = X)).flatMap (fun _ =>
            (getExtendedQueries X).map fun q => ⟨.payload, X, q⟩) ∧
        res.PayloadQueries X =
          (if (pointersFor .payload X ans).isEmpty then none
            else some (pointersFor .payload X ans)) ∧
        (res.PayloadQueries X = none ↔ (X ∉ sentOperands prog ∨ getExtendedQueries X = [])) := by
  obtain ⟨ans, ha, -, hres⟩ := collectPtsToQueries_some env prog c c1 inc res h
  have hfst := (answers_length env _ _ _ ha).2
  refine ⟨ans, ha, hfst, fun i a hia => (answers_getElem env _ _ _ ha i a hia).2, ?_⟩
  intro X
  have hpq : res.PayloadQueries X =
      (if (pointersFor .payload X ans).isEmpty then none
        else some (pointersFor .payload X ans)) := by
    rw [hres, foldl_applyAnswer_PayloadQueries]
    simp
  refine ⟨requests_filter_payload env inc X (programEvents prog), hpq, ?_⟩
  rw [hpq]
  have hempty := pointersFor_isEmpty ReqKind.payload X ans
  rw [hfst] at hempty
  constructor
  · intro hnone
    have he : (pointersFor ReqKind.payload X ans).isEmpty = true := by
      by_contra hne
      rw [if_neg hne] at hnone
      exact absurd hnone (by simp)
    have hall := hempty.mp he
    by_contra hcon
    simp only [not_or, not_not] at hcon
    obtain ⟨hsent, hne⟩ := hcon
    obtain ⟨q, qs, hq⟩ := List.exists_cons_of_ne_nil hne
    have hmem : (⟨.payload, X, q⟩ : Request) ∈ requests env inc prog :=
      (mem_requests_payload env inc prog ⟨.payload, X, q⟩ rfl).mpr ⟨hsent, by simp [hq]⟩
    exact hall _ hmem ⟨rfl, rfl⟩
  · intro hcase
    have he : (pointersFor ReqKind.payload X ans).isEmpty = true := by
      rw [hempty]
      rintro r hr ⟨hk, hv⟩
      obtain ⟨hsent, hpath⟩ := (mem_requests_payload env inc prog r hk).mp hr
      rw [hv] at hsent hpath
      rcases hcase with hns | hnil
      · exact hns hsent
      · rw [hnil] at hpath; simp at hpath
    rw [if_pos he]

/-- Witness of C12: in `exampleProgram` under `All` the struct `examplePayload` is
sent twice and has two channel paths; its four pointers follow the two pointers of
the locker queries. -/
theorem collectPtsToQueries_PayloadQueries_witness :
    ∃ c1 res, collectPtsToQueries (exampleEnv false) exampleProgram (freshConfig Nat [0])
        { All := true } = some (c1, res) ∧
      res.PayloadQueries examplePayload = some [102, 103, 104, 105] ∧
      res.PayloadQueries exampleChan = none ∧
      ∃ ans, answers (exampleEnv false) 0 (requests (exampleEnv false) { All := true }
          exampleProgram) = some ans ∧
        ans.map Prod.fst = requests (exampleEnv false) { All := true } exampleProgram ∧
        (∀ (i : Nat) (a : Request × Nat), ans[i]? = some a →
          (exampleEnv false).AddExtendedQuery (0 + i) a.1.v a.1.path = some a.2) ∧
        ∀ X : Value,
          (requests (exampleEnv false) { All := true } exampleProgram).filter
              (fun r => decide (r.kind = .payload ∧ r.v = X)) =
            ((sentOperands exampleProgram).filter fun Y => decide (Y = X)).flatMap (fun _ =>
              (getExtendedQueries X).map fun q => ⟨.payload, X, q⟩) ∧
          res.PayloadQueries X =
            (if (pointersFor .payload X ans).isEmpty then none
              else some (pointersFor .payload X ans)) ∧
          (res.PayloadQueries X = none ↔
            (X ∉ sentOperands exampleProgram ∨ getExtendedQueries X = [])) :=
  ⟨_, _, rfl, rfl, rfl,
    collectPtsToQueries_PayloadQueries (exampleEnv false) exampleProgram (freshConfig Nat [0]) _
      { All := true } _ rfl⟩

/-- Claim C13, refuted as stated.  First run: with the option `SkipSync` set, the
heap allocation `exampleCondHeap` of a `sync.Cond` is visited and classified with
`_DIRECT`, yet `CondQueries` has no entry for it.  Second run: with the option
unset, the stack allocation `exampleCondStack`, which is no heap allocation, has
an entry. -/
theorem CondQueries_needs_SkipSync_off_and_any_Alloc :
    (∃ c1 res, collectPtsToQueries (exampleEnv true) exampleProgram (freshConfig Nat [0])
        { All := true } = some (c1, res) ∧
      exampleCondHeap ∈ visited exampleProgram ∧
      checkType { All := true } exampleCondHeap.type &&& _DIRECT ≠ 0 ∧
      isCondPointer (exampleEnv true) exampleCondHeap = true ∧
      exampleCondHeap.isAlloc = true ∧ exampleCondHeap.Heap = true ∧
      res.CondQueries exampleCondHeap = none) ∧
    (∃ c1 res, collectPtsToQueries (exampleEnv false) exampleProgram (freshConfig Nat [0])
        { All := true } = some (c1, res) ∧
      exampleCondStack.Heap = false ∧
      res.CondQueries exampleCondStack = some 101) :=
  ⟨⟨_, _, rfl, by decide, by decide, by decide, rfl, rfl, rfl⟩, ⟨_, _, rfl, rfl, rfl⟩⟩

/-- Claim C13, amended: after a run of `collectPtsToQueries` that ends normally,
`CondQueries` has an entry for a value exactly when the option `SkipSync` is unset,
the value was visited, its classification includes `_DIRECT`, its static type is a
pointer to the type `sync.Cond`, and it is an `*ssa.Alloc` instruction (on the heap
or on the stack); the entry is the pointer handed out for the last registration of
an extended query on the value for the locker path `x.L`. -/
theorem collectPtsToQueries_CondQueries {P R : Type} (env : Env P R) (prog : Program)
    (c c1 : Config P) (inc : IncludeType) (res : PointerResult P R)
    (h : collectPtsToQueries env prog c inc = some (c1, res)) :
    ∃ ans, answers env c.extendedQueries.length (requests env inc prog) = some ans ∧
      (∀ (i : Nat) (a : Request × P), ans[i]? = some a →
        env.AddExtendedQuery (c.extendedQueries.length + i) a.1.v a.1.path = some a.2) ∧
      (∀ a ∈ ans, a.1.kind = .cond → a.1.path = lockerPath) ∧
      ∀ v : Value,
        res.CondQueries v = (pointersFor .cond v ans).getLast? ∧
        (res.CondQueries v ≠ none ↔
          (env.SkipSync = false ∧ v ∈ visited prog ∧ checkType inc v.type &&& _DIRECT ≠ 0 ∧
            isCondPointer env v = true ∧ v.isAlloc = true)) := by
  obtain ⟨ans, ha, -, hres⟩ := collectPtsToQueries_some env prog c c1 inc res h
  have hfst := (answers_length env _ _ _ ha).2
  refine ⟨ans, ha, fun i a hia => (answers_getElem env _ _ _ ha i a hia).2, ?_, ?_⟩
  · intro a hmem hk
    have hr : a.1 ∈ requests env inc prog := by
      rw [← hfst]; exact List.mem_map_of_mem _ hmem
    exact ((mem_requests_cond env inc prog a.1 hk).mp hr).2.2
  · intro v
    have hcq : res.CondQueries v = (pointersFor .cond v ans).getLast? := by
      rw [hres, foldl_applyAnswer_CondQueries]
      cases (pointersFor ReqKind.cond v ans).getLast? <;> rfl
    refine ⟨hcq, ?_⟩
    have hempty := pointersFor_isEmpty ReqKind.cond v ans
    rw [hfst] at hempty
    have hne : res.CondQueries v ≠ none ↔ ¬ (pointersFor ReqKind.cond v ans).isEmpty = true := by
      rw [hcq]
      cases hl : pointersFor ReqKind.cond v ans with
      | nil => simp
      | cons p ps =>
        simp only [List.isEmpty_cons, Bool.false_eq_true, not_false_eq_true, iff_true]
        exact fun hn => absurd (List.getLast?_eq_none_iff.mp hn) (by simp)
    rw [hne, hempty]
    have hcond : condApplies env inc v = true ↔
        (env.SkipSync = false ∧ checkType inc v.type &&& _DIRECT ≠ 0 ∧
          isCondPointer env v = true ∧ v.isAlloc = true) := by
      simp only [condApplies, includesDirect, Bool.and_eq_true, Bool.not_eq_true',
        bne_iff_ne, ne_eq]
      tauto
    constructor
    · intro hex
      simp only [not_forall, not_not] at hex
      obtain ⟨r, hr, hk, hv⟩ := hex
      obtain ⟨hvis, hc, -⟩ := (mem_requests_cond env inc prog r hk).mp hr
      rw [hv] at hvis hc
      obtain ⟨h1, h2, h3, h4⟩ := hcond.mp hc
      exact ⟨h1, hvis, h2, h3, h4⟩
    · rintro ⟨h1, hvis, h2, h3, h4⟩ hall
      have hc := hcond.mpr ⟨h1, h2, h3, h4⟩
      exact hall ⟨.cond, v, lockerPath⟩
        ((mem_requests_cond env inc prog ⟨.cond, v, lockerPath⟩ rfl).mpr ⟨hvis, hc, rfl⟩)
        ⟨rfl, rfl⟩

/-- Witness of the amended C13: in `exampleProgram` under `All` both allocations of a
`sync.Cond` get an entry, the pointers of the first two registrations. -/
theorem collectPtsToQueries_CondQueries_witness :
    ∃ c1 res, collectPtsToQueries (exampleEnv false) exampleProgram (freshConfig Nat [0])
        { All := true } = some (c1, res) ∧
      res.CondQueries exampleCondHeap = some 100 ∧
      res.CondQueries exampleCondStack = some 101 ∧
      res.CondQueries exampleCall = none ∧
      ∃ ans, answers (exampleEnv false) 0 (requests (exampleEnv false) { All := true }
          exampleProgram) = some ans ∧
        (∀ (i : Nat) (a : Request × Nat), ans[i]? = some a →
          (exampleEnv false).AddExtendedQuery (0 + i) a.1.v a.1.path = some a.2) ∧
        (∀ a ∈ ans, a.1.kind = .cond → a.1.path = lockerPath) ∧
        ∀ v : Value,
          res.CondQueries v = (pointersFor .cond v ans).getLast? ∧
          (res.CondQueries v ≠ none ↔
            ((exampleEnv false).SkipSync = false ∧ v ∈ visited exampleProgram ∧
              checkType { All := true } v.type &&& _DIRECT ≠ 0 ∧
              isCondPointer (exampleEnv false) v = true ∧ v.isAlloc = true)) :=
  ⟨_, _, rfl, rfl, rfl, rfl,
    collectPtsToQueries_CondQueries (exampleEnv false) exampleProgram (freshConfig Nat [0]) _
      { All := true } _ rfl⟩

/-! ## Query collection: call instructions -/

/-- A call instruction of the program hands its callee and itself to `maybeAdd`. -/
theorem call_events (prog : Program) (fn : SSAFunction) (hfn : fn ∈ prog)
    (block : List Instr) (hb : block ∈ fn.Blocks) (callee v : Value)
    (hi : Instr.Call callee v ∈ block) :
    Event.visit callee ∈ programEvents prog ∧ Event.visit v ∈ programEvents prog := by
  simp only [programEvents, functionEvents, List.mem_flatMap, List.mem_append, List.mem_map]
  exact ⟨⟨fn, hfn, Or.inr (Or.inr ⟨block, hb, _, hi, by simp [instrEvents]⟩)⟩,
    ⟨fn, hfn, Or.inr (Or.inr ⟨block, hb, _, hi, by simp [instrEvents]⟩)⟩⟩

/-- Claim C14: for every call instruction in every block of every function, a run
of `collectPtsToQueries` that ends normally has classified both the callee value
and the value of the call itself and has registered the queries of a targeted one:
each of the two is among the direct queries when its classification includes
`_DIRECT` and among the indirect queries when it includes `_INDIRECT`. -/
theorem collectPtsToQueries_call {P R : Type} (env : Env P R) (prog : Program)
    (c c1 : Config P) (inc : IncludeType) (res : PointerResult P R)
    (h : collectPtsToQueries env prog c inc = some (c1, res))
    (fn : SSAFunction) (hfn : fn ∈ prog) (block : List Instr) (hb : block ∈ fn.Blocks)
    (callee v : Value) (hi : Instr.Call callee v ∈ block) :
    callee ∈ visited prog ∧ v ∈ visited prog ∧
    (checkType inc callee.type &&& _DIRECT ≠ 0 → callee ∈ c1.Queries) ∧
    (checkType inc callee.type &&& _INDIRECT ≠ 0 → callee ∈ c1.IndirectQueries) ∧
    (checkType inc v.type &&& _DIRECT ≠ 0 → v ∈ c1.Queries) ∧
    (checkType inc v.type &&& _INDIRECT ≠ 0 → v ∈ c1.IndirectQueries) := by
  obtain ⟨ans, -, hc1, -⟩ := collectPtsToQueries_some env prog c c1 inc res h
  obtain ⟨e1, e2⟩ := call_events prog fn hfn block hb callee v hi
  have hq : c1.Queries = c.Queries ++ (programEvents prog).flatMap (eventDirect inc) := by
    rw [hc1]; rfl
  have hiq : c1.IndirectQueries =
      c.IndirectQueries ++ (programEvents prog).flatMap (eventIndirect inc) := by
    rw [hc1]; rfl
  refine ⟨(mem_visited prog callee).mpr e1, (mem_visited prog v).mpr e2, ?_, ?_, ?_, ?_⟩
  · intro hd
    rw [hq]
    exact List.mem_append_right _
      ((mem_flatMap_eventDirect inc _ callee).mpr ⟨e1, by simpa [includesDirect] using hd⟩)
  · intro hd
    rw [hiq]
    exact List.mem_append_right _
      ((mem_flatMap_eventIndirect inc _ callee).mpr ⟨e1, by simpa [includesIndirect] using hd⟩)
  · intro hd
    rw [hq]
    exact List.mem_append_right _
      ((mem_flatMap_eventDirect inc _ v).mpr ⟨e2, by simpa [includesDirect] using hd⟩)
  · intro hd
    rw [hiq]
    exact List.mem_append_right _
      ((mem_flatMap_eventIndirect inc _ v).mpr ⟨e2, by simpa [includesIndirect] using hd⟩)

/-- Witness of C14: the call of `exampleProgram` under `All`; the callee gets a
direct query, the returned pointer to a channel a direct and an indirect one. -/
theorem collectPtsToQueries_call_witness :
    ∃ c1 res, collectPtsToQueries (exampleEnv false) exampleProgram (freshConfig Nat [0])
        { All := true } = some (c1, res) ∧
      checkType { All := true } exampleCallee.type &&& _DIRECT ≠ 0 ∧
      checkType { All := true } exampleCall.type &&& _DIRECT ≠ 0 ∧
      checkType { All := true } exampleCall.type &&& _INDIRECT ≠ 0 ∧
      exampleCallee ∈ c1.Queries ∧ exampleCall ∈ c1.Queries ∧
      exampleCall ∈ c1.IndirectQueries :=
  ⟨_, _, rfl, by decide, by decide, by decide,
    (collectPtsToQueries_call (exampleEnv false) exampleProgram (freshConfig Nat [0]) _
      { All := true } _ rfl _ (List.mem_singleton.mpr rfl) _ (List.mem_singleton.mpr rfl)
      exampleCallee exampleCall (by decide)).2.2.1 (by decide),
    (collectPtsToQueries_call (exampleEnv false) exampleProgram (freshConfig Nat [0]) _
      { All := true } _ rfl _ (List.mem_singleton.mpr rfl) _ (List.mem_singleton.mpr rfl)
      exampleCallee exampleCall (by decide)).2.2.2.2.1 (by decide),
    (collectPtsToQueries_call (exampleEnv false) exampleProgram (freshConfig Nat [0]) _
      { All := true } _ rfl _ (List.mem_singleton.mpr rfl) _ (List.mem_singleton.mpr rfl)
      exampleCallee exampleCall (by decide)).2.2.2.2.2 (by decide)⟩

/-! ## The wrapper `Andersen` -/

/-- Every registration is answered exactly when each single one is. -/
theorem answers_isSome_iff {P R : Type} (env : Env P R) :
    ∀ (l : List Request) (k : Nat),
    (∃ ans, answers env k l = some ans) ↔
      ∀ (i : Nat) (q : Request), l[i]? = some q →
        (env.AddExtendedQuery (k + i) q.v q.path).isSome = true := by
  intro l
  induction l with
  | nil => intro k; simp [answers]
  | cons r rs ih =>
    intro k
    simp only [answers]
    constructor
    · rintro ⟨ans, hans⟩ i q hq
      cases h1 : env.AddExtendedQuery k r.v r.path with
      | none => rw [h1] at hans; exact absurd hans (by simp)
      | some ptr =>
        rw [h1] at hans
        cases h2 : answers env (k + 1) rs with
        | none => rw [h2] at hans; exact absurd hans (by simp)
        | some rest =>
          cases i with
          | zero =>
            simp only [List.getElem?_cons_zero, Option.some.injEq] at hq
            subst hq
            simp [h1]
          | succ j =>
            simp only [List.getElem?_cons_succ] at hq
            have := (ih (k + 1)).mp ⟨rest, h2⟩ j q hq
            have e : k + (j + 1) = k + 1 + j := by omega
            rw [e]; exact this
    · intro hall
      have h0 := hall 0 r (by simp)
      simp only [Nat.add_zero] at h0
      obtain ⟨ptr, hptr⟩ := Option.isSome_iff_exists.mp h0
      have hrest : ∃ rest, answers env (k + 1) rs = some rest := by
        rw [ih]
        intro i q hq
        have := hall (i + 1) q (by simpa using hq)
        have e : k + (i + 1) = k + 1 + i := by omega
        rw [e] at this; exact this
      obtain ⟨rest, hrest⟩ := hrest
      exact ⟨(r, ptr) :: rest, by rw [hptr, hrest]⟩

/-- Claim C15: `Andersen` returns a result exactly when every registration of an
extended query made during the collection succeeds and the run of the solver on
the collected configuration succeeds; the returned result then holds the output of
the solver and the two maps built by `collectPtsToQueries`; in every other case the
run ends fatally and there is no result. -/
theorem Andersen_returns_iff {P R : Type} (env : Env P R) (prog : Program)
    (mains : List Nat) (inc : IncludeType) :
    ((∃ r, Andersen env prog mains inc = some r) ↔
      ((∀ (i : Nat) (q : Request), (requests env inc prog)[i]? = some q →
          (env.AddExtendedQuery i q.v q.path).isSome = true) ∧
        ∃ cfg res, collectPtsToQueries env prog (freshConfig P mains) inc = some (cfg, res) ∧
          (env.Analyze cfg).isSome = true)) ∧
    ((∀ (i : Nat) (q : Request), (requests env inc prog)[i]? = some q →
        (env.AddExtendedQuery i q.v q.path).isSome = true) ↔
      ∃ st, collectPtsToQueries env prog (freshConfig P mains) inc = some st) ∧
    (∀ r, Andersen env prog mains inc = some r →
      ∃ cfg res result,
        collectPtsToQueries env prog (freshConfig P mains) inc = some (cfg, res) ∧
        env.Analyze cfg = some result ∧ r.Result = some result ∧
        r.CondQueries = res.CondQueries ∧ r.PayloadQueries = res.PayloadQueries) ∧
    (¬((∀ (i : Nat) (q : Request), (requests env inc prog)[i]? = some q →
          (env.AddExtendedQuery i q.v q.path).isSome = true) ∧
        ∃ cfg res, collectPtsToQueries env prog (freshConfig P mains) inc = some (cfg, res) ∧
          (env.Analyze cfg).isSome = true) →
      Andersen env prog mains inc = none) := by
  have hreg : (∀ (i : Nat) (q : Request), (requests env inc prog)[i]? = some q →
        (env.AddExtendedQuery i q.v q.path).isSome = true) ↔
      ∃ st, collectPtsToQueries env prog (freshConfig P mains) inc = some st := by
    rw [collectPtsToQueries_isSome, answers_isSome_iff]
    simp [freshConfig]
  have hres : ∀ r, Andersen env prog mains inc = some r →
      ∃ cfg res result,
        collectPtsToQueries env prog (freshConfig P mains) inc = some (cfg, res) ∧
        env.Analyze cfg = some result ∧ r.Result = some result ∧
        r.CondQueries = res.CondQueries ∧ r.PayloadQueries = res.PayloadQueries := by
    intro r hr
    simp only [Andersen] at hr
    change (match collectPtsToQueries env prog (freshConfig P mains) inc with
      | none => none
      | some (a_config, ptResult) =>
        match env.Analyze a_config with
        | none => none
        | some result => some { ptResult with Result := some result }) = some r at hr
    cases hc : collectPtsToQueries env prog (freshConfig P mains) inc with
    | none => rw [hc] at hr; exact absurd hr (by simp)
    | some st =>
      obtain ⟨cfg, res⟩ := st
      rw [hc] at hr
      simp only at hr
      cases hA : env.Analyze cfg with
      | none => rw [hA] at hr; exact absurd hr (by simp)
      | some result =>
        rw [hA] at hr
        simp only [Option.some.injEq] at hr
        subst hr
        exact ⟨cfg, res, result, rfl, hA, rfl, rfl, rfl⟩
  have hiff : (∃ r, Andersen env prog mains inc = some r) ↔
      ((∀ (i : Nat) (q : Request), (requests env inc prog)[i]? = some q →
          (env.AddExtendedQuery i q.v q.path).isSome = true) ∧
        ∃ cfg res, collectPtsToQueries env prog (freshConfig P mains) inc = some (cfg, res) ∧
          (env.Analyze cfg).isSome = true) := by
    constructor
    · rintro ⟨r, hr⟩
      obtain ⟨cfg, res, result, hc, hA, -⟩ := hres r hr
      exact ⟨hreg.mpr ⟨_, hc⟩, cfg, res, hc, by simp [hA]⟩
    · rintro ⟨-, cfg, res, hc, hA⟩
      obtain ⟨result, hresult⟩ := Option.isSome_iff_exists.mp hA
      refine ⟨{ res with Result := some result }, ?_⟩
      simp only [Andersen]
      change (match collectPtsToQueries env prog (freshConfig P mains) inc with
        | none => none
        | some (a_config, ptResult) =>
          match env.Analyze a_config with
          | none => none
          | some result => some { ptResult with Result := some result }) = _
      rw [hc]
      simp only [hresult]
  refine ⟨hiff, hreg, hres, ?_⟩
  intro hnot
  cases hA : Andersen env prog mains inc with
  | none => rfl
  | some r => exact absurd (hiff.mp ⟨r, hA⟩) hnot

/-- Witness of C15: with a solver that refuses every extended query the run on
`exampleProgram` has no result. -/
theorem Andersen_returns_iff_witness :
    ¬((∀ (i : Nat) (q : Request),
          (requests refusingEnv { All := true } exampleProgram)[i]? = some q →
          (refusingEnv.AddExtendedQuery i q.v q.path).isSome = true) ∧
        ∃ cfg res, collectPtsToQueries refusingEnv exampleProgram (freshConfig Nat [0])
            { All := true } = some (cfg, res) ∧ (refusingEnv.Analyze cfg).isSome = true) ∧
    Andersen refusingEnv exampleProgram [0] { All := true } = none :=
  ⟨fun h => absurd (h.1 0 ⟨.cond, exampleCondHeap, lockerPath⟩ rfl) (by decide),
   (Andersen_returns_iff refusingEnv exampleProgram [0] { All := true }).2.2.2
     (fun h => absurd (h.1 0 ⟨.cond, exampleCondHeap, lockerPath⟩ rfl) (by decide))⟩

/-- An example of a run of `Andersen` that returns: with the solver of `exampleEnv`
the run on `exampleProgram` returns the output of the solver, here the number 5 of
direct queries. -/
theorem Andersen_example_returns :
    ∃ r, Andersen (exampleEnv false) exampleProgram [0] { All := true } = some r ∧
      r.Result = some 5 :=
  ⟨_, rfl, rfl⟩

/-! ## Abstract memory -/

/-- The six checks of the test `TestMemory/Multialloc` hold in the model. -/
theorem memory_test_Multialloc :
    ((Memory.empty : Memory Nat).Allocate max exampleSite 0 false).IsMultialloc exampleSite
      = false ∧
    (((Memory.empty : Memory Nat).Allocate max exampleSite 0 false).Allocate max exampleSite 0
      false).IsMultialloc exampleSite = true ∧
    ((Memory.empty : Memory Nat).Allocate max exampleSite 0 true).IsMultialloc exampleSite
      = true ∧
    ((Memory.empty : Memory Nat).Allocate max .TopLocation 0 false).IsMultialloc .TopLocation
      = true ∧
    (((Memory.empty : Memory Nat).Allocate max .TopLocation 0 false).Allocate max .TopLocation 0
      false).IsMultialloc .TopLocation = true ∧
    ((Memory.empty : Memory Nat).Allocate max .TopLocation 0 true).IsMultialloc .TopLocation
      = true := by
  decide

theorem Allocate_cells_same {A : Type} (join : A → A → A) (m : Memory A)
    (l : AddressableLocation) (v : A) (f : Bool) :
    (m.Allocate join l v f).cells l =
      match m.cells l with
      | none => some (v, f)
      | some (old, _) => some (join old v, true) := by
  simp only [Memory.Allocate]
  cases h : m.cells l with
  | none => simp
  | some p => obtain ⟨old, flag⟩ := p; simp

theorem Allocate_cells_other {A : Type} (join : A → A → A) (m : Memory A)
    (l l2 : AddressableLocation) (v : A) (f : Bool) (hne : l2 ≠ l) :
    (m.Allocate join l v f).cells l2 = m.cells l2 := by
  simp only [Memory.Allocate]
  cases h : m.cells l with
  | none => simp [hne]
  | some p => obtain ⟨old, flag⟩ := p; simp [hne]

/-- Claim C16: for every memory, non-Top location, value and flag: if the location
is unmapped, then after `Allocate` it holds the value and `IsMultialloc` equals the
flag; if it is mapped, then after `Allocate` it holds the join of the existing
value and the value, and `IsMultialloc` is true whatever the flag. -/
theorem Allocate_spec {A : Type} (join : A → A → A) (m : Memory A)
    (l : AddressableLocation) (v : A) (f : Bool) (hl : l ≠ .TopLocation) :
    (m.cells l = none →
      (m.Allocate join l v f).Get l = some v ∧ (m.Allocate join l v f).IsMultialloc l = f) ∧
    (∀ old flag, m.cells l = some (old, flag) →
      (m.Allocate join l v f).Get l = some (join old v) ∧
      (m.Allocate join l v f).IsMultialloc l = true) := by
  cases l with
  | TopLocation => exact absurd rfl hl
  | AllocationSiteLocation g ctx site =>
    constructor
    · intro hnone
      have hc := Allocate_cells_same join m (.AllocationSiteLocation g ctx site) v f
      rw [hnone] at hc
      simp [Memory.Get, Memory.IsMultialloc, hc]
    · intro old flag hsome
      have hc := Allocate_cells_same join m (.AllocationSiteLocation g ctx site) v f
      rw [hsome] at hc
      simp [Memory.Get, Memory.IsMultialloc, hc]

/-- Witness of C16: a first allocation at `exampleSite`, then a second one. -/
theorem Allocate_spec_witness :
    ((Memory.empty : Memory Nat).Allocate max exampleSite 3 false).Get exampleSite = some 3 ∧
    ((Memory.empty : Memory Nat).Allocate max exampleSite 3 false).IsMultialloc exampleSite
      = false ∧
    (((Memory.empty : Memory Nat).Allocate max exampleSite 3 false).Allocate max exampleSite 7
      false).Get exampleSite = some (max 3 7) ∧
    (((Memory.empty : Memory Nat).Allocate max exampleSite 3 false).Allocate max exampleSite 7
      false).IsMultialloc exampleSite = true :=
  ⟨((Allocate_spec max (Memory.empty : Memory Nat) exampleSite 3 false (by decide)).1 rfl).1,
   ((Allocate_spec max (Memory.empty : Memory Nat) exampleSite 3 false (by decide)).1 rfl).2,
   ((Allocate_spec max ((Memory.empty : Memory Nat).Allocate max exampleSite 3 false)
      exampleSite 7 false (by decide)).2 3 false rfl).1,
   ((Allocate_spec max ((Memory.empty : Memory Nat).Allocate max exampleSite 3 false)
      exampleSite 7 false (by decide)).2 3 false rfl).2⟩

/-- One `Allocate` call keeps a true `IsMultialloc`. -/
theorem IsMultialloc_Allocate {A : Type} (join : A → A → A) (m : Memory A)
    (l l2 : AddressableLocation) (v : A) (f : Bool) (h : m.IsMultialloc l = true) :
    (m.Allocate join l2 v f).IsMultialloc l = true := by
  cases l with
  | TopLocation => rfl
  | AllocationSiteLocation g ctx site =>
    simp only [Memory.IsMultialloc] at h ⊢
    by_cases hne : AddressableLocation.AllocationSiteLocation g ctx site = l2
    · subst hne
      rw [Allocate_cells_same]
      cases hc : m.cells (.AllocationSiteLocation g ctx site) with
      | none => rw [hc] at h; exact absurd h (by simp)
      | some p => obtain ⟨old, flag⟩ := p; rfl
    · rw [Allocate_cells_other join m l2 _ v f hne]
      exact h

/-- Claim C17: once `IsMultialloc` is true for a location, it stays true after every
finite sequence of further `Allocate` calls, to any locations, with any values and
any flags. -/
theorem IsMultialloc_monotone {A : Type} (join : A → A → A)
    (calls : List (AddressableLocation × A × Bool)) :
    ∀ (m : Memory A) (l : AddressableLocation), m.IsMultialloc l = true →
      (m.AllocateAll join calls).IsMultialloc l = true := by
  induction calls with
  | nil => intro m l h; exact h
  | cons call calls ih =>
    intro m l h
    simp only [Memory.AllocateAll, List.foldl_cons]
    exact ih _ l (IsMultialloc_Allocate join m l call.1 call.2.1 call.2.2 h)

/-- Witness of C17: `exampleSite` allocated once with the flag set, then allocated
again without it, next to allocations of another site and of the Top location. -/
theorem IsMultialloc_monotone_witness :
    ((Memory.empty : Memory Nat).Allocate max exampleSite 0 true).IsMultialloc exampleSite
      = true ∧
    (((Memory.empty : Memory Nat).Allocate max exampleSite 0 true).AllocateAll max
      [(exampleSite, 1, false), (.AllocationSiteLocation 1 0 0, 2, false),
       (.TopLocation, 3, false)]).IsMultialloc exampleSite = true :=
  ⟨by decide,
   IsMultialloc_monotone max
     [(exampleSite, 1, false), (.AllocationSiteLocation 1 0 0, 2, false),
      (.TopLocation, 3, false)]
     ((Memory.empty : Memory Nat).Allocate max exampleSite 0 true) exampleSite (by decide)⟩

/-- Claim C18: for the Top location and every memory obtained from the empty memory
by `Allocate` calls on it, with any values and any flags, `IsMultialloc` of the Top
location is true; so it is after one or more calls, and after a single call without
the flag. -/
theorem IsMultialloc_TopLocation {A : Type} (join : A → A → A) (calls : List (A × Bool)) :
    ((Memory.empty : Memory A).AllocateAll join
      (calls.map fun call => (AddressableLocation.TopLocation, call.1, call.2))).IsMultialloc
        .TopLocation = true ∧
    ∀ (v : A), ((Memory.empty : Memory A).Allocate join .TopLocation v false).IsMultialloc
      .TopLocation = true :=
  ⟨rfl, fun _ => rfl⟩

/-! ## SSA value sets -/

theorem Add_keys {V : Type} [DecidableEq V] (s : SSAValueSet V) (v : V) :
    (s.Add v).tree.keys = if v ∈ s.tree.keys then s.tree.keys else s.tree.keys ++ [v] := by
  simp only [SSAValueSet.Add, Tree.InsertOrMerge, Tree.Lookup]
  by_cases h : v ∈ s.tree.keys <;> simp [h]

/-- The elements after a run of `Add` calls: the old elements and the added ones. -/
theorem foldl_Add_mem {V : Type} [DecidableEq V] (x : V) :
    ∀ (vs : List V) (s : SSAValueSet V),
    x ∈ (vs.foldl (fun t v => t.Add v) s).tree.keys ↔ x ∈ s.tree.keys ∨ x ∈ vs := by
  intro vs
  induction vs with
  | nil => intro s; simp
  | cons v vs ih =>
    intro s
    rw [List.foldl_cons, ih, Add_keys]
    by_cases h : v ∈ s.tree.keys
    · simp only [if_pos h, List.mem_cons]
      constructor
      · rintro (h1 | h1)
        · exact Or.inl h1
        · exact Or.inr (Or.inr h1)
      · rintro (h1 | h1 | h1)
        · exact Or.inl h1
        · subst h1; exact Or.inl h
        · exact Or.inr h1
    · simp only [if_neg h, List.mem_append, List.mem_singleton, List.mem_cons]
      tauto

/-- A run of `Add` calls keeps the tree free of repeated keys. -/
theorem foldl_Add_nodup {V : Type} [DecidableEq V] :
    ∀ (vs : List V) (s : SSAValueSet V), s.tree.keys.Nodup →
    (vs.foldl (fun t v => t.Add v) s).tree.keys.Nodup := by
  intro vs
  induction vs with
  | nil => intro s h; exact h
  | cons v vs ih =>
    intro s h
    rw [List.foldl_cons]
    apply ih
    rw [Add_keys]
    by_cases hv : v ∈ s.tree.keys
    · rw [if_pos hv]; exact h
    · rw [if_neg hv]
      exact List.Nodup.append h (List.nodup_singleton v) (by simpa using hv)

/-- A run of `Add` calls adds at most one key per call. -/
theorem foldl_Add_length {V : Type} [DecidableEq V] :
    ∀ (vs : List V) (s : SSAValueSet V),
    (vs.foldl (fun t v => t.Add v) s).tree.keys.length ≤ s.tree.keys.length + vs.length := by
  intro vs
  induction vs with
  | nil => intro s; simp
  | cons v vs ih =>
    intro s
    rw [List.foldl_cons]
    refine le_trans (ih _) ?_
    rw [Add_keys]
    by_cases hv : v ∈ s.tree.keys
    · rw [if_pos hv]; simp only [List.length_cons]; omega
    · rw [if_neg hv]; simp only [List.length_append, List.length_cons, List.length_nil]; omega

theorem MakeSSASet_mem {V : Type} [DecidableEq V] (vs : List V) (x : V) :
    x ∈ (MakeSSASet vs).tree.keys ↔ x ∈ vs := by
  simp [MakeSSASet, foldl_Add_mem, NewTree]

theorem MakeSSASet_nodup {V : Type} [DecidableEq V] (vs : List V) :
    (MakeSSASet vs).tree.keys.Nodup :=
  foldl_Add_nodup vs _ (by simp [NewTree])

theorem MakeSSASet_length {V : Type} [DecidableEq V] (vs : List V) :
    (MakeSSASet vs).tree.keys.length ≤ vs.length := by
  have := foldl_Add_length vs (⟨NewTree⟩ : SSAValueSet V)
  simpa [MakeSSASet, NewTree] using this

/-- Claim C22: for all SSA value sets `s1` and `s2` and every value `v`, the set
`s1.Meet(s2)` contains `v` exactly when both `s1` and `s2` contain it; `s.Meet(s)`
has the members of `s` (it is `s`); and the size of the result exceeds the size of
neither operand. -/
theorem Meet_spec {V : Type} [DecidableEq V] (s1 s2 : SSAValueSet V) (v : V) :
    ((s1.Meet s2).Contains v = true ↔ (s1.Contains v = true ∧ s2.Contains v = true)) ∧
    (s1.Meet s1).Contains v = s1.Contains v ∧ s1.Meet s1 = s1 ∧
    (s1.Meet s2).Size ≤ s1.Size ∧ (s1.Meet s2).Size ≤ s2.Size := by
  have hself : s1.Meet s1 = s1 := by simp [SSAValueSet.Meet]
  refine ⟨?_, by rw [hself], hself, ?_, ?_⟩
  · by_cases h : s1 = s2
    · subst h
      rw [hself]
      simp
    · simp only [SSAValueSet.Meet, if_neg h, SSAValueSet.Contains, Tree.Lookup,
        decide_eq_true_eq, MakeSSASet_mem, SSAValueSet.Entries, List.mem_filter]
  · by_cases h : s1 = s2
    · subst h; rw [hself]
    · simp only [SSAValueSet.Meet, if_neg h, SSAValueSet.Size, Tree.Size]
      exact le_trans (MakeSSASet_length _) (List.length_filter_le _ _)
  · by_cases h : s1 = s2
    · subst h; rw [hself]
    · simp only [SSAValueSet.Meet, if_neg h, SSAValueSet.Size, Tree.Size]
      apply List.Subperm.length_le
      apply List.subperm_of_subset (MakeSSASet_nodup _)
      intro x hx
      rw [MakeSSASet_mem] at hx
      have := (List.mem_filter.mp hx).2
      simpa [SSAValueSet.Contains, Tree.Lookup] using this

/-- Two arrangements of the same elements that show the same sequence of keys are
the same list, when the key tells the elements apart. -/
theorem eq_of_perm_of_map_eq {α β : Type} (f : α → β) :
    ∀ (l1 l2 : List α), l1.Perm l2 → l1.map f = l2.map f →
    (∀ x ∈ l1, ∀ y ∈ l1, f x = f y → x = y) → l1 = l2 := by
  intro l1
  induction l1 with
  | nil => intro l2 hp _ _; exact (List.Perm.nil_eq hp)
  | cons x xs ih =>
    intro l2 hp hm hinj
    cases l2 with
    | nil => exact absurd hp.symm.nil_eq (by simp)
    | cons y ys =>
      simp only [List.map_cons, List.cons.injEq] at hm
      have hy : y ∈ x :: xs := hp.symm.subset (List.mem_cons_self _ _)
      have hxy : x = y := hinj x (List.mem_cons_self _ _) y hy hm.1
      subst hxy
      have hp2 : xs.Perm ys := List.Perm.cons_inv hp
      rw [ih ys hp2 hm.2 (fun a ha b hb => hinj a (List.mem_cons_of_mem _ ha) b
        (List.mem_cons_of_mem _ hb))]

theorem Tree_Equal_mem {V : Type} [DecidableEq V] (a b : Tree V) (h : a.Equal b = true) (x : V) :
    x ∈ a.keys ↔ x ∈ b.keys := by
  simp only [Tree.Equal, Tree.Lookup, Bool.and_eq_true, List.all_eq_true,
    decide_eq_true_eq] at h
  exact ⟨h.1 x, h.2 x⟩

/-- An insertion sort by sorting key is a sorting procedure in the sense of
`SortsByKey`. -/
theorem insertionSort_SortsByKey {V : Type} (env : HashEnv V)
    (h : ∀ (less : V → V → Bool) (l : List V),
      env.SortSlice less l = l.insertionSort fun a b => less b a = false) :
    SortsByKey env := by
  intro l
  have htotal : IsTotal V
      (fun a b => decide (sortingKey env b < sortingKey env a) = false) :=
    ⟨fun a b => by
      simp only [decide_eq_false_iff_not, not_lt]
      exact le_total _ _⟩
  have htrans : IsTrans V
      (fun a b => decide (sortingKey env b < sortingKey env a) = false) :=
    ⟨fun a b c => by
      simp only [decide_eq_false_iff_not, not_lt]
      exact le_trans⟩
  rw [h]
  refine ⟨List.perm_insertionSort _ l, ?_⟩
  have hs := List.sorted_insertionSort
    (fun a b => decide (sortingKey env b < sortingKey env a) = false) l
  simp only [List.Sorted, List.pairwise_map]
  refine List.Pairwise.imp ?_ hs
  intro a b hab
  simpa using hab

/-- Two sets with the same entries have the same hash. -/
theorem Hash_eq_of_same_Entries {V : Type} (env : HashEnv V) (a b : SSAValueSet V)
    (h : a.Entries = b.Entries) :
    ssaValueSetHasher.Hash env a = ssaValueSetHasher.Hash env b := by
  simp only [ssaValueSetHasher.Hash, h]

/-- When the sorting key tells the members apart, two sets of the same members have
the same hash, whatever the order of their entries and whatever sorting procedure
`sort.Slice` runs. -/
theorem Hash_eq_of_distinct_keys {V : Type} [DecidableEq V] (env : HashEnv V)
    (hsort : SortsByKey env)
    (a b : SSAValueSet V) (ha : a.tree.keys.Nodup) (hb : b.tree.keys.Nodup)
    (heq : ssaValueSetHasher.Equal a b = true)
    (hkeys : ∀ x ∈ a.tree.keys, ∀ y ∈ a.tree.keys,
      sortingKey env x = sortingKey env y → x = y) :
    ssaValueSetHasher.Hash env a = ssaValueSetHasher.Hash env b := by
  have hperm : a.tree.keys.Perm b.tree.keys :=
    (List.perm_ext_iff_of_nodup ha hb).mpr (Tree_Equal_mem a.tree b.tree heq)
  obtain ⟨pa, sa⟩ := hsort a.tree.keys
  obtain ⟨pb, sb⟩ := hsort b.tree.keys
  have hp := pa.trans (hperm.trans pb.symm)
  have hm := List.eq_of_perm_of_sorted (hp.map (sortingKey env)) sa sb
  have hl := eq_of_perm_of_map_eq (sortingKey env) _ _ hp hm
    (fun x hx y hy => hkeys x (pa.subset hx) y (pa.subset hy))
  simp only [ssaValueSetHasher.Hash, SSAValueSet.Entries, hl]

/-! ## Extended queries: the root of the descent -/

theorem getExtendedQueries_rootType (v : Value) :
    getExtendedQueries v = collectLabels (rootType v) ['x'] [] := by
  simp only [getExtendedQueries, rootType]

theorem getExtendedQueries_eq_chains (v : Value) :
    getExtendedQueries v = (chanChains (rootType v)).map renderChain := by
  rw [getExtendedQueries_rootType, collectLabels_eq_chains]
  simp [renderChain]

/-- Claim C24: for a root value whose type is a channel, or a pointer to a channel
(types taken after named unwrapping), `getExtendedQueries` returns exactly the
one-element list of the path `x`, a path without field component; a send of such a
value therefore registers one payload query, on the value itself. -/
theorem getExtendedQueries_chan {P R : Type} (env : Env P R) (inc : IncludeType) (v : Value) :
    (∀ e, v.type.Underlying = .Chan e → getExtendedQueries v = [['x']]) ∧
    (∀ p e, v.type.Underlying = .Pointer p → p.Underlying = .Chan e →
      getExtendedQueries v = [['x']]) ∧
    (getExtendedQueries v = [['x']] →
      eventRequests env inc (.send v) = [⟨.payload, v, ['x']⟩]) := by
  refine ⟨?_, ?_, ?_⟩
  · intro e h
    simp only [getExtendedQueries, h, collectLabels, List.nil_append]
  · intro p e h he
    simp only [getExtendedQueries, h]
    rw [collectLabels_Underlying, he]
    simp only [collectLabels, List.nil_append]
  · intro h
    simp only [eventRequests, h, List.map_cons, List.map_nil]

/-- Witness of C24: a channel of channels, a pointer to a named channel type, and
the payload query of a send of the first. -/
theorem getExtendedQueries_chan_witness :
    getExtendedQueries ⟨0, .Chan (.Chan intType), false, false⟩ = [['x']] ∧
    getExtendedQueries
      ⟨1, .Pointer (.Named ['m'] ['C'] (.Chan intType)), true, true⟩ = [['x']] ∧
    eventRequests (exampleEnv false) standardInclude
        (.send ⟨0, .Chan (.Chan intType), false, false⟩)
      = [⟨.payload, ⟨0, .Chan (.Chan intType), false, false⟩, ['x']⟩] :=
  ⟨(getExtendedQueries_chan (exampleEnv false) standardInclude
      ⟨0, .Chan (.Chan intType), false, false⟩).1 _ rfl,
   (getExtendedQueries_chan (exampleEnv false) standardInclude
      ⟨1, .Pointer (.Named ['m'] ['C'] (.Chan intType)), true, true⟩).2.1 _ intType rfl rfl,
   (getExtendedQueries_chan (exampleEnv false) standardInclude
      ⟨0, .Chan (.Chan intType), false, false⟩).2.2 rfl⟩

/-- Claim C25: `getExtendedQueries` removes exactly one pointer level at the root:
for a type `T` whose underlying type is no pointer, a root of type pointer-to-`T`
gives the result of a root of type `T`, and a root of type
pointer-to-pointer-to-`T` gives the empty list. -/
theorem getExtendedQueries_one_pointer_level (T : GoType)
    (hT : ∀ e, T.Underlying ≠ .Pointer e) (v1 v2 v3 : Value)
    (h1 : v1.type = .Pointer T) (h2 : v2.type = T) (h3 : v3.type = .Pointer (.Pointer T)) :
    getExtendedQueries v1 = getExtendedQueries v2 ∧ getExtendedQueries v3 = [] := by
  constructor
  · have e1 : getExtendedQueries v1 = collectLabels T ['x'] [] := by
      simp only [getExtendedQueries, h1, GoType.Underlying]
    have e2 : getExtendedQueries v2 = collectLabels T.Underlying ['x'] [] := by
      simp only [getExtendedQueries, h2]
    rw [e1, e2, ← collectLabels_Underlying]
  · simp only [getExtendedQueries, h3, GoType.Underlying, collectLabels]

/-- Witness of C25: the struct `Wrapper` behind no, one and two pointers. -/
theorem getExtendedQueries_one_pointer_level_witness :
    getExtendedQueries ⟨1, .Pointer exampleWrapper, true, true⟩ =
      getExtendedQueries ⟨2, exampleWrapper, false, false⟩ ∧
    getExtendedQueries ⟨3, .Pointer (.Pointer exampleWrapper), true, true⟩ = [] :=
  getExtendedQueries_one_pointer_level exampleWrapper (fun e h => by cases h)
    ⟨1, .Pointer exampleWrapper, true, true⟩ ⟨2, exampleWrapper, false, false⟩
    ⟨3, .Pointer (.Pointer exampleWrapper), true, true⟩ rfl rfl rfl

/-! ## Query collection without pointers -/

/-- With neither `All` nor `Pointer` set, a type classifies as `_NOT_TYPE` or as
`_DIRECT`, and a pointer type as `_NOT_TYPE`. -/
theorem checkType_pointers_disabled (inc : IncludeType) (hA : inc.All = false)
    (hP : inc.Pointer = false) : ∀ t : GoType,
    (checkType inc t = _NOT_TYPE ∨ checkType inc t = _DIRECT) ∧
    (∀ e, t.Underlying = .Pointer e → checkType inc t = _NOT_TYPE)
  | .Named _ _ u => by
    simp only [checkType, GoType.Underlying]
    exact checkType_pointers_disabled inc hA hP u
  | .Basic _ => by simp [checkType, GoType.Underlying]
  | .Chan _ => by
    simp only [checkType, GoType.Underlying]
    refine ⟨?_, fun e h => by cases h⟩
    split <;> simp
  | .Signature => by
    simp only [checkType, GoType.Underlying]
    refine ⟨?_, fun e h => by cases h⟩
    split <;> simp
  | .Interface => by
    simp only [checkType, GoType.Underlying]
    refine ⟨?_, fun e h => by cases h⟩
    split <;> simp
  | .Map _ _ => by
    simp only [checkType, GoType.Underlying]
    refine ⟨?_, fun e h => by cases h⟩
    split <;> simp
  | .Slice _ => by
    simp only [checkType, GoType.Underlying]
    refine ⟨?_, fun e h => by cases h⟩
    split <;> simp
  | .Pointer _ => by simp [checkType, hA, hP]
  | .Array _ _ => by simp [checkType, GoType.Underlying]
  | .Struct _ => by simp [checkType, GoType.Underlying]
  | .Tuple => by simp [checkType, GoType.Underlying]

theorem includesIndirect_pointers_disabled (inc : IncludeType) (hA : inc.All = false)
    (hP : inc.Pointer = false) (v : Value) : includesIndirect inc v = false := by
  simp only [includesIndirect]
  rcases (checkType_pointers_disabled inc hA hP v.type).1 with h | h <;> rw [h] <;> decide

theorem condApplies_pointers_disabled {P R : Type} (env : Env P R) (inc : IncludeType)
    (hA : inc.All = false) (hP : inc.Pointer = false) (v : Value) :
    condApplies env inc v = false := by
  simp only [condApplies, isCondPointer, includesDirect]
  cases hU : v.type.Underlying with
  | Pointer e =>
    rw [(checkType_pointers_disabled inc hA hP v.type).2 e hU]
    simp only [Bool.and_eq_false_imp]
    intro h
    exact absurd h (by decide)
  | _ => simp

/-- Claim C26: whenever the configuration has neither `All` nor `Pointer` set, as
under the configuration of `GetPtsToSets`, a run of `collectPtsToQueries` that ends
normally has registered no indirect query and returns an empty map `CondQueries`:
no pointer-typed value is classified as targeted, and the only registrations of
extended queries are those of payloads. -/
theorem collectPtsToQueries_pointers_disabled {P R : Type} (env : Env P R) (prog : Program)
    (c c1 : Config P) (inc : IncludeType) (res : PointerResult P R)
    (hA : inc.All = false) (hP : inc.Pointer = false)
    (h : collectPtsToQueries env prog c inc = some (c1, res)) :
    c1.IndirectQueries = c.IndirectQueries ∧
    (∀ v : Value, res.CondQueries v = none) ∧
    (∀ (v : Value) (e : GoType), v.type.Underlying = .Pointer e →
      checkType inc v.type = _NOT_TYPE) ∧
    (∀ r ∈ requests env inc prog, r.kind = .payload) ∧
    (standardInclude.All = false ∧ standardInclude.Pointer = false) := by
  obtain ⟨ans, ha, hc1, hres⟩ := collectPtsToQueries_some env prog c c1 inc res h
  have hfst := (answers_length env _ _ _ ha).2
  have hind : (programEvents prog).flatMap (eventIndirect inc) = [] := by
    rw [List.flatMap_eq_nil_iff]
    intro e _
    cases e with
    | visit v => simp [eventIndirect, includesIndirect_pointers_disabled inc hA hP v]
    | send X => rfl
  have hreq : ∀ r ∈ requests env inc prog, r.kind = .payload := by
    intro r hr
    simp only [requests, List.mem_flatMap] at hr
    obtain ⟨e, -, hre⟩ := hr
    cases e with
    | visit v =>
      simp [eventRequests, condApplies_pointers_disabled env inc hA hP v] at hre
    | send X =>
      simp only [eventRequests, List.mem_map] at hre
      obtain ⟨q, -, rfl⟩ := hre
      rfl
  refine ⟨?_, ?_, fun v e hU => (checkType_pointers_disabled inc hA hP v.type).2 e hU, hreq,
    rfl, rfl⟩
  · rw [hc1]
    simp [extendConfig, hind]
  · intro v
    rw [hres, foldl_applyAnswer_CondQueries]
    have hempty : (pointersFor ReqKind.cond v ans).isEmpty = true := by
      rw [pointersFor_isEmpty, hfst]
      rintro r hr ⟨hk, -⟩
      rw [hreq r hr] at hk
      exact absurd hk (by simp)
    rw [List.isEmpty_iff.mp hempty]
    rfl

/-- Witness of C26: the run on `exampleProgram`, with its two allocations of a
`sync.Cond`, under the configuration of `GetPtsToSets`. -/
theorem collectPtsToQueries_pointers_disabled_witness :
    ∃ c1 res, collectPtsToQueries (exampleEnv false) exampleProgram (freshConfig Nat [0])
        standardInclude = some (c1, res) ∧
      c1.IndirectQueries = [] ∧
      (∀ v : Value, res.CondQueries v = none) ∧
      (∀ (v : Value) (e : GoType), v.type.Underlying = .Pointer e →
        checkType standardInclude v.type = _NOT_TYPE) ∧
      (∀ r ∈ requests (exampleEnv false) standardInclude exampleProgram, r.kind = .payload) ∧
      (standardInclude.All = false ∧ standardInclude.Pointer = false) :=
  ⟨_, _, rfl,
    collectPtsToQueries_pointers_disabled (exampleEnv false) exampleProgram
      (freshConfig Nat [0]) _ standardInclude _ rfl rfl rfl⟩

/-! ## Extended queries decoded by `SplitLabel` -/

mutual
/-- The names on the chains of a type with legal field names are legal. -/
theorem chanChains_legal : ∀ (t : GoType), LegalFieldNames t →
    ∀ chain ∈ chanChains t, ∀ name ∈ chain, LegalName name
  | .Named _ _ u, h, chain, hc, name, hn => by
    simp only [LegalFieldNames] at h
    simp only [chanChains] at hc
    exact chanChains_legal u h chain hc name hn
  | .Struct fs, h, chain, hc, name, hn => by
    simp only [LegalFieldNames] at h
    simp only [chanChains] at hc
    exact fieldChains_legal fs h chain hc name hn
  | .Chan _, _, chain, hc, name, hn => by
    simp only [chanChains, List.mem_singleton] at hc
    subst hc
    simp at hn
  | .Basic _, _, _, hc, _, _ => by simp [chanChains] at hc
  | .Signature, _, _, hc, _, _ => by simp [chanChains] at hc
  | .Interface, _, _, hc, _, _ => by simp [chanChains] at hc
  | .Map _ _, _, _, hc, _, _ => by simp [chanChains] at hc
  | .Slice _, _, _, hc, _, _ => by simp [chanChains] at hc
  | .Pointer _, _, _, hc, _, _ => by simp [chanChains] at hc
  | .Array _ _, _, _, hc, _, _ => by simp [chanChains] at hc
  | .Tuple, _, _, hc, _, _ => by simp [chanChains] at hc
/-- The names on the chains of a field list with legal names are legal. -/
theorem fieldChains_legal : ∀ (fs : FieldList), LegalFields fs →
    ∀ chain ∈ fieldChains fs, ∀ name ∈ chain, LegalName name
  | .nil, _, _, hc, _, _ => by simp [fieldChains] at hc
  | .cons fname ty rest, h, chain, hc, name, hn => by
    simp only [LegalFields] at h
    obtain ⟨h1, h2, h3⟩ := h
    simp only [fieldChains, List.mem_append, List.mem_map] at hc
    rcases hc with ⟨tl, htl, rfl⟩ | hc
    · simp only [List.mem_cons] at hn
      rcases hn with rfl | hn
      · exact h1
      · exact chanChains_legal ty h2 tl htl name hn
    · exact fieldChains_legal rest h3 chain hc name hn
end

/-- The path of a chain of legal field names decodes to the field accesses of the
chain. -/
theorem SplitLabel_fieldChain {V : Type} (root : V) (chain : List (List Char))
    (h : ∀ name ∈ chain, LegalName name) :
    SplitLabel ⟨root, encodePath (chain.map Access.FieldAccess)⟩ =
      some (root, chain.map Access.FieldAccess) := by
  have hstep : ∀ a ∈ chain.map Access.FieldAccess, LegalStep a := by
    intro a ha
    obtain ⟨name, hn, rfl⟩ := List.mem_map.mp ha
    exact h name hn
  have htok : ∀ t ∈ (chain.map Access.FieldAccess).map encodeStep, IsToken t := by
    intro t ht
    obtain ⟨a, ha, rfl⟩ := List.mem_map.mp ht
    exact (hstep a ha).token.1
  rw [encodePath, SplitLabel_tokens root _ htok, List.map_map]
  congr 2
  calc List.map _ (chain.map Access.FieldAccess)
      = List.map id (chain.map Access.FieldAccess) :=
        List.map_congr_left fun a ha => (hstep a ha).token.2
    _ = chain.map Access.FieldAccess := List.map_id _

theorem renderChain_eq (chain : List (List Char)) :
    renderChain chain = 'x' :: encodePath (chain.map Access.FieldAccess) := by
  simp [renderChain, encodePath, List.map_map, Function.comp_def, encodeStep]

/-- Claim C27: for a root whose struct field names are non-empty and free of dots
and open square brackets, every path returned by `getExtendedQueries` is the root
name `x` followed by the path of a chain of field names that leads from the root
type to a channel, and once the `x` is removed `SplitLabel` accepts the path and
decodes it to the field accesses of that chain, in order, without any array
access. -/
theorem getExtendedQueries_SplitLabel {V : Type} (root : V) (v : Value)
    (hlegal : LegalFieldNames (rootType v)) (label : List Char)
    (hl : label ∈ getExtendedQueries v) :
    ∃ chain : List (List Char),
      ReachesChan (rootType v) chain ∧
      label = 'x' :: encodePath (chain.map Access.FieldAccess) ∧
      SplitLabel ⟨root, label.drop 1⟩ = some (root, chain.map Access.FieldAccess) ∧
      ∀ a ∈ chain.map Access.FieldAccess, a ≠ Access.ArrayAccess := by
  rw [getExtendedQueries_eq_chains, List.mem_map] at hl
  obtain ⟨chain, hc, rfl⟩ := hl
  refine ⟨chain, chanChains_sound _ chain hc, renderChain_eq chain, ?_, ?_⟩
  · rw [renderChain_eq]
    exact SplitLabel_fieldChain root chain (chanChains_legal _ hlegal chain hc)
  · intro a ha
    obtain ⟨name, -, rfl⟩ := List.mem_map.mp ha
    simp

/-- Witness of C27: the path `x.Object.ch` of the struct `Wrapper`. -/
theorem getExtendedQueries_SplitLabel_witness :
    LegalFieldNames (rootType ⟨0, exampleWrapper, false, false⟩) ∧
    ['x', '.', 'O', 'b', 'j', 'e', 'c', 't', '.', 'c', 'h'] ∈
      getExtendedQueries ⟨0, exampleWrapper, false, false⟩ ∧
    ∃ chain : List (List Char),
      ReachesChan (rootType ⟨0, exampleWrapper, false, false⟩) chain ∧
      ['x', '.', 'O', 'b', 'j', 'e', 'c', 't', '.', 'c', 'h'] =
        'x' :: encodePath (chain.map Access.FieldAccess) ∧
      SplitLabel (⟨7, ['x', '.', 'O', 'b', 'j', 'e', 'c', 't', '.', 'c', 'h'].drop 1⟩ :
          Label Nat) = some (7, chain.map Access.FieldAccess) ∧
      ∀ a ∈ chain.map Access.FieldAccess, a ≠ Access.ArrayAccess :=
  ⟨by simp [rootType, exampleWrapper, exampleWrapperFields, GoType.Underlying, LegalFieldNames,
      LegalFields, LegalName, intType],
   by decide,
   getExtendedQueries_SplitLabel 7 ⟨0, exampleWrapper, false, false⟩
     (by simp [rootType, exampleWrapper, exampleWrapperFields, GoType.Underlying,
       LegalFieldNames, LegalFields, LegalName, intType])
     ['x', '.', 'O', 'b', 'j', 'e', 'c', 't', '.', 'c', 'h'] (by decide)⟩

end Goat
